import Mathlib

/-
Shallow embedding of the expression-compiler core of the `ascesis`
repository: the `Polynomial` set algebra (`src/polynomial.rs`), dot
lists (`src/domain.rs`), arrow rules and the FIT (fat-into-thin)
transformation, the arena-encoded `Rex` tree with its builder, the
`fit_clone` normalization and the bottom-up compilation pass
(`src/rex.rs`).

Modelling conventions:
* `BTreeSet<T>` is modelled as `Finset` (a `BTreeSet` is extensional:
  two are equal iff they hold the same elements).
* The sorted, deduplicated `Vec<DotName>` inside `DotList` is modelled
  as `Finset Node`; its equality and `add_assign` (append, sort, dedup)
  coincide with `Finset` equality and union.
* `Vec<Warning>` is modelled as `Multiset Warning`: the order in which
  idempotency warnings are pushed is the `BTreeSet` iteration order,
  and the properties under study only concern which warnings occur and
  how many times.
* Rust panics (`panic!`, failed `assert!`, out-of-bounds indexing,
  `expect`, `unwrap`) are modelled by returning `none`.
* The unbounded `loop` of the FIT transformation is modelled with an
  explicit fuel argument; the fuel `tx.length + rx.length + 1` is
  proven sufficient below, so the fuelled function agrees with the
  source's unbounded loop everywhere.
* `aces::PartialContent` lives outside this repository; the claims
  under study only concern which typed error the compilation pass
  produces, so content values are modelled as a free term algebra
  (`Content`) mirroring the combination calls the pass performs.
-/

set_option maxRecDepth 4000

namespace Ascesis

/-- Identifier: `Node` in `polynomial.rs` / `DotName` in `domain.rs`, a
string wrapper ordered lexicographically.  Modelled as `String`. -/
abbrev Node := String

/-- A monomial: `BTreeSet<Node>`, modelled extensionally. -/
abbrev Mono := Finset Node

/-- Idempotency warnings, `enum Warning` of `polynomial.rs`. -/
inductive Warning where
  | SumIdempotency (mono : Mono)
  | ProductIdempotency (node : Node)
deriving DecidableEq

/-- `struct Polynomial` of `polynomial.rs`: an ordered deduplicated set
of monomials plus the `is_flat` flag and accumulated warnings. -/
structure Polynomial where
  monomials : Finset Mono
  is_flat : Bool
  warnings : Multiset Warning
deriving DecidableEq

/-- `impl Default for Polynomial`: empty monomial set, flat, no warnings. -/
def Polynomial.default : Polynomial :=
  { monomials := ∅, is_flat := true, warnings := 0 }

/-- `impl From<&str> for Polynomial`: single-monomial, single-identifier. -/
def Polynomial.fromNode (n : Node) : Polynomial :=
  { monomials := {{n}}, is_flat := true, warnings := 0 }

/-- `Polynomial::add_assign` (`polynomial.rs` lines 94-105): union the
monomial collections, clear `is_flat`, push one `SumIdempotency`
warning per monomial shared by the two sides.  The Rust code drains
`other`; `other` is discarded by every caller, so only the updated
`self` is returned. -/
def Polynomial.add_assign (p other : Polynomial) : Polynomial :=
  { monomials := p.monomials ∪ other.monomials
    is_flat := false
    warnings := p.warnings +
      Multiset.map Warning.SumIdempotency (p.monomials ∩ other.monomials).val }

/-- One step of `Polynomial::multiply_assign` (`polynomial.rs` lines
68-92), for a single factor: replace the monomial set by the pairwise
unions (`BTreeSet` insertion collapses duplicates), clear `is_flat` if
the factor is not flat, and push one `ProductIdempotency` warning per
identifier shared by a crossed pair. -/
def Polynomial.mulFactor (p factor : Polynomial) : Polynomial :=
  { monomials := Finset.image₂ (fun a b => a ∪ b) p.monomials factor.monomials
    is_flat := p.is_flat && factor.is_flat
    warnings := p.warnings +
      Multiset.bind p.monomials.val (fun a =>
        Multiset.bind factor.monomials.val (fun b =>
          Multiset.map Warning.ProductIdempotency (a ∩ b).val)) }

/-- `Polynomial::multiply_assign`: fold `mulFactor` over the factors in
order. -/
def Polynomial.multiply_assign (p : Polynomial) (factors : List Polynomial) : Polynomial :=
  factors.foldl Polynomial.mulFactor p

/-- `Polynomial::flattened_clone` (`polynomial.rs` lines 48-66): a flat
polynomial is cloned as-is; otherwise all monomials are unioned into a
single monomial.  On a non-flat polynomial with no monomials the Rust
code panics (`expect("non-flat empty polynomial")`), modelled as
`none`. -/
def Polynomial.flattened_clone (p : Polynomial) : Option Polynomial :=
  if p.is_flat then some p
  else if p.monomials = ∅ then none
  else some { monomials := {p.monomials.sup id}, is_flat := true, warnings := p.warnings }

/-- `DotList` of `domain.rs`: a sorted deduplicated `Vec<DotName>`,
modelled as a finite set (equality and `add_assign` = union agree). -/
abbrev DotList := Finset Node

/-- `DotList::add_assign`: append, sort, dedup — i.e. set union. -/
def DotList.add_assign (a b : DotList) : DotList := a ∪ b

/-- `impl TryFrom<Polynomial> for DotList` (`domain.rs` lines 77-101):
a flat polynomial with at most one monomial converts to that monomial
(or the empty list); anything else is `NotADotList`, modelled `none`. -/
def DotList.tryFromPolynomial (p : Polynomial) : Option DotList :=
  if p.is_flat then
    if p.monomials.card ≤ 1 then some (p.monomials.sup id) else none
  else none

/-- `struct ThinArrowRule` of `rex.rs`: a dot list, a cause polynomial
and an effect polynomial. -/
structure ThinArrowRule where
  dots : DotList
  cause : Polynomial
  effect : Polynomial
deriving DecidableEq

/-- `ThinArrowRule::new()`: all fields default. -/
def ThinArrowRule.new : ThinArrowRule :=
  { dots := ∅, cause := Polynomial.default, effect := Polynomial.default }

/-- `ThinArrowRule::with_dots`: convert the polynomial to a dot list
(`try_into`), failing as the source does. -/
def ThinArrowRule.with_dots (t : ThinArrowRule) (dots : Polynomial) : Option ThinArrowRule :=
  (DotList.tryFromPolynomial dots).map (fun d => { t with dots := d })

/-- `ThinArrowRule::with_cause`. -/
def ThinArrowRule.with_cause (t : ThinArrowRule) (cause : Polynomial) : ThinArrowRule :=
  { t with cause := cause }

/-- `ThinArrowRule::with_effect`. -/
def ThinArrowRule.with_effect (t : ThinArrowRule) (effect : Polynomial) : ThinArrowRule :=
  { t with effect := effect }

/-- `enum BinOp` of `lex.rs`. -/
inductive BinOp where
  | Add
  | ThinTx
  | ThinRx
  | FatTx
  | FatRx
  | FatDx
deriving DecidableEq

/-- `struct FatArrow` of `rex.rs`: one directed cause/effect pair. -/
structure FatArrow where
  cause : Polynomial
  effect : Polynomial
deriving DecidableEq

/-- `struct FatArrowRule` of `rex.rs`: a sequence of directed pairs. -/
structure FatArrowRule where
  parts : List FatArrow
deriving DecidableEq

/-- The loop body of `FatArrowRule::from_parts` (`rex.rs` lines
420-445): walk the tail, emitting one pair per `=>`/`<=` link and two
pairs per `<=>` link; any other operator panics. -/
def FatArrowRule.fromPartsGo (prev : Polynomial) :
    List (BinOp × Polynomial) → Option (List FatArrow)
  | [] => some []
  | (op, poly) :: rest =>
    match op with
    | BinOp.FatTx =>
      (FatArrowRule.fromPartsGo poly rest).map
        (fun l => { cause := prev, effect := poly } :: l)
    | BinOp.FatRx =>
      (FatArrowRule.fromPartsGo poly rest).map
        (fun l => { cause := poly, effect := prev } :: l)
    | BinOp.FatDx =>
      (FatArrowRule.fromPartsGo poly rest).map
        (fun l => { cause := prev, effect := poly } ::
                  { cause := poly, effect := prev } :: l)
    | _ => none

/-- `FatArrowRule::from_parts`: asserts a non-empty tail (a
single-polynomial fat arrow rule panics), then folds the chain. -/
def FatArrowRule.from_parts (head : Polynomial) (tail : List (BinOp × Polynomial)) :
    Option FatArrowRule :=
  match tail with
  | [] => none
  | _ =>
    (FatArrowRule.fromPartsGo head tail).map (fun ps => { parts := ps })

/-- FIT step 1 (`rex.rs` lines 468-481): for each part, flatten both
sides and emit an effect-only rule keyed by the flattened cause and a
cause-only rule keyed by the flattened effect.  Returns
`(tx_tars, rx_tars)`. -/
def fitStep1 : List FatArrow → Option (List ThinArrowRule × List ThinArrowRule)
  | [] => some ([], [])
  | part :: rest => do
    let sources ← part.cause.flattened_clone
    let sinks ← part.effect.flattened_clone
    let tx ← ThinArrowRule.new.with_dots sources
    let rx ← ThinArrowRule.new.with_dots sinks
    let (txs, rxs) ← fitStep1 rest
    some ((tx.with_effect part.effect) :: txs, (rx.with_cause part.cause) :: rxs)

/-- One insertion of the merge scan (`rex.rs` lines 493-503 etc.): scan
the accumulated list in order; the first element equal under `e` is
merged in place via `m`, otherwise the incoming rule is pushed at the
end.  Returns the updated list and whether a merge happened. -/
def mergeInsert (e : ThinArrowRule → ThinArrowRule → Bool)
    (m : ThinArrowRule → ThinArrowRule → ThinArrowRule) :
    List ThinArrowRule → ThinArrowRule → List ThinArrowRule × Bool
  | [], t => ([t], false)
  | a :: acc, t =>
    if e a t then (m a t :: acc, true)
    else
      let r := mergeInsert e m acc t
      (a :: r.1, r.2)

/-- One full scan of a merge step: fold `mergeInsert` over the input in
order, starting from an empty accumulator, or-ing the merge flags. -/
def mergePassGo (e : ThinArrowRule → ThinArrowRule → Bool)
    (m : ThinArrowRule → ThinArrowRule → ThinArrowRule)
    (acc : List ThinArrowRule) (flag : Bool) :
    List ThinArrowRule → List ThinArrowRule × Bool
  | [] => (acc, flag)
  | t :: ts =>
    let r := mergeInsert e m acc t
    mergePassGo e m r.1 (flag || r.2) ts

/-- A merge step over a whole list. -/
def mergePass (e : ThinArrowRule → ThinArrowRule → Bool)
    (m : ThinArrowRule → ThinArrowRule → ThinArrowRule)
    (ts : List ThinArrowRule) : List ThinArrowRule × Bool :=
  mergePassGo e m [] false ts

/-- Key equality on dot lists (`tar_2.dots == tar_1.dots`). -/
def eqDots (a b : ThinArrowRule) : Bool := a.dots = b.dots

/-- Key equality on effect polynomials (`tar_3.effect == tar_2.effect`,
full structural equality of the polynomials). -/
def eqEffect (a b : ThinArrowRule) : Bool := a.effect = b.effect

/-- Key equality on cause polynomials. -/
def eqCause (a b : ThinArrowRule) : Bool := a.cause = b.cause

/-- Step-2 merge for effect-only rules: `tar_2.effect.add_assign(&mut
tar_1.effect)`. -/
def mergeEffect (a b : ThinArrowRule) : ThinArrowRule :=
  { a with effect := a.effect.add_assign b.effect }

/-- Step-2 merge for cause-only rules. -/
def mergeCause (a b : ThinArrowRule) : ThinArrowRule :=
  { a with cause := a.cause.add_assign b.cause }

/-- Step-3 merge: `tar_3.dots.add_assign(&mut tar_2.dots)`. -/
def mergeDots (a b : ThinArrowRule) : ThinArrowRule :=
  { a with dots := a.dots.add_assign b.dots }

/-- One iteration of the FIT fixpoint loop (`rex.rs` lines 483-560):
step 2 on both lists (merge by identical dot list), then step 3 on
both (merge by identical polynomial).  Returns the new lists and
whether any merge happened (`!at_fixpoint`). -/
def fitPass (tx rx : List ThinArrowRule) :
    List ThinArrowRule × List ThinArrowRule × Bool :=
  let t2 := mergePass eqDots mergeEffect tx
  let r2 := mergePass eqDots mergeCause rx
  let t3 := mergePass eqEffect mergeDots t2.1
  let r3 := mergePass eqCause mergeDots r2.1
  (t3.1, r3.1, t2.2 || r2.2 || t3.2 || r3.2)

/-- The FIT fixpoint loop with explicit fuel: repeat `fitPass` until a
pass makes no merge.  `none` means the fuel ran out; the fuel
`tx.length + rx.length + 1` is proven sufficient below. -/
def fitLoop : Nat → List ThinArrowRule → List ThinArrowRule →
    Option (List ThinArrowRule × List ThinArrowRule)
  | 0, _, _ => none
  | n + 1, tx, rx =>
    let p := fitPass tx rx
    if p.2.2 then fitLoop n p.1 p.2.1 else some (p.1, p.2.1)

/-- FIT step 4 inner scan (`rex.rs` lines 565-573): find the first
effect-only rule with the same dot list and transplant the cause into
it; if none matches, push the cause-only rule at the end. -/
def step4insert : List ThinArrowRule → ThinArrowRule → List ThinArrowRule
  | [], r => [r]
  | t :: ts, r =>
    if t.dots = r.dots then { t with cause := r.cause } :: ts
    else t :: step4insert ts r

/-- The FIT transformation, `impl From<&FatArrowRule> for
Vec<ThinArrowRule>` (`rex.rs` lines 454-577): split, merge to a
fixpoint, then pair rules that share a dot list. -/
def fit (far : FatArrowRule) : Option (List ThinArrowRule) := do
  let (tx, rx) ← fitStep1 far.parts
  let (tx2, rx2) ← fitLoop (tx.length + rx.length + 1) tx rx
  some (rx2.foldl step4insert tx2)

/-- `struct CesImmediate` of `ces.rs` (only the name matters here). -/
structure CesImmediate where
  name : String
deriving DecidableEq

/-- `struct CesInstance` of `ces.rs`. -/
structure CesInstance where
  name : String
  args : List String
deriving DecidableEq

/-- `struct RexTree` of `rex.rs`: a list of indices into the node array. -/
structure RexTree where
  ids : List Nat
deriving DecidableEq

/-- `enum RexKind` of `rex.rs`. -/
inductive RexKind where
  | Thin (t : ThinArrowRule)
  | Fat (f : FatArrowRule)
  | Immediate (i : CesImmediate)
  | Instance (i : CesInstance)
  | Product (t : RexTree)
  | Sum (t : RexTree)
deriving DecidableEq

/-- `struct Rex`: a flat array of tagged nodes, root at index 0. -/
structure Rex where
  kinds : List RexKind
deriving DecidableEq

/-- The per-node shift of `AppendWithOffset for Vec<RexKind>` (`rex.rs`
lines 317-331): add `offset` to every child index of a `Product` or
`Sum` node. -/
def shiftKind (offset : Nat) : RexKind → RexKind
  | RexKind.Product t => RexKind.Product ⟨t.ids.map (fun i => i + offset)⟩
  | RexKind.Sum t => RexKind.Sum ⟨t.ids.map (fun i => i + offset)⟩
  | k => k

/-- The plusless branch of `Rex::with_more` (`rex.rs` lines 40-53):
append each sub-array shifted by the running length, collecting the
offset of each sub-array's root. -/
def plusslessGo (kinds : List RexKind) (ids : List Nat) (offset : Nat) :
    List (Option BinOp × Rex) → List RexKind × List Nat
  | [] => (kinds, ids)
  | (_, rex) :: rest =>
    plusslessGo (kinds ++ rex.kinds.map (shiftKind offset)) (ids ++ [offset])
      (offset + rex.kinds.length) rest

/-- State of the sum-branch loop of `Rex::with_more` (`rex.rs` lines
54-116): the node array, the collected `Sum` children, the pending
`Product` children, the current addend anchor and the next free
position (`offset`, always equal to `kinds.length`). -/
structure WMState where
  kinds : List RexKind
  sumIds : List Nat
  productIds : List Nat
  anchor : Nat
  offset : Nat
deriving DecidableEq

/-- Append a sub-expression's node array at the current offset. -/
def wmAppend (st : WMState) (rex : Rex) : WMState :=
  { st with kinds := st.kinds ++ rex.kinds.map (shiftKind st.offset)
            offset := st.offset + rex.kinds.length }

/-- One iteration of the sum-branch loop of `Rex::with_more`.  The
boolean is `is_followed_by_product` for this pair.  A `+` closes the
current product (merging pending factor ids into the anchor's
`Product` node — a panic, modelled `none`, if the anchor holds no
`Product`), records the anchor as a `Sum` child and starts a new
anchor; a missing operator records the next position as a pending
factor.  Any operator other than `+` panics. -/
def wmStep (st : WMState) (entry : (Option BinOp × Rex) × Bool) : Option WMState :=
  match entry.1.1 with
  | some BinOp.Add =>
    let st1? :=
      if st.productIds = [] then some st
      else
        match st.kinds.get? st.anchor with
        | some (RexKind.Product t) =>
          some { st with kinds := st.kinds.set st.anchor (RexKind.Product ⟨t.ids ++ st.productIds⟩)
                         productIds := [] }
        | _ => none
    st1?.bind (fun st1 =>
      let st2 := { st1 with sumIds := st1.sumIds ++ [st1.anchor], anchor := st1.offset }
      let st3 :=
        if entry.2 then
          { st2 with kinds := st2.kinds ++ [RexKind.Product ⟨[]⟩]
                     offset := st2.offset + 1
                     productIds := st2.productIds ++ [st2.offset + 1] }
        else st2
      some (wmAppend st3 entry.1.2))
  | some _ => none
  | none => some (wmAppend { st with productIds := st.productIds ++ [st.offset] } entry.1.2)

/-- The epilogue of the sum branch: flush pending factors into the
anchor (wholesale replacement `kinds[anchor] = Product(product_ids)`,
a panic if the anchor is out of range), close the last addend, and
write the `Sum` root at position 0. -/
def wmFinish (st : WMState) : Option Rex :=
  let st1? :=
    if st.productIds = [] then some st
    else if st.anchor < st.kinds.length then
      some { st with kinds := st.kinds.set st.anchor (RexKind.Product ⟨st.productIds⟩) }
    else none
  st1?.map (fun st1 =>
    ⟨st1.kinds.set 0 (RexKind.Sum ⟨st1.sumIds ++ [st1.anchor]⟩)⟩)

/-- `Rex::with_more` (`rex.rs` lines 33-117).  Rust panics (a non-`Add`
operator, or an index panic in the anchor bookkeeping) are modelled as
`none`. -/
def Rex.with_more (self : Rex) (rexlist : List (Option BinOp × Rex)) : Option Rex :=
  match rexlist with
  | [] => some self
  | first :: _ =>
    if rexlist.all (fun p => p.1.isNone) then
      let r := plusslessGo (RexKind.Product ⟨[]⟩ :: self.kinds.map (shiftKind 1)) [1]
        (1 + self.kinds.length) rexlist
      some ⟨r.1.set 0 (RexKind.Product ⟨r.2⟩)⟩
    else
      let fbp := rexlist.map (fun p => p.1.isNone)
      let st0 :=
        if first.1.isNone then
          wmAppend { kinds := [RexKind.Sum ⟨[]⟩, RexKind.Product ⟨[]⟩], sumIds := []
                     productIds := [2], anchor := 1, offset := 2 } self
        else
          wmAppend { kinds := [RexKind.Sum ⟨[]⟩], sumIds := []
                     productIds := [], anchor := 1, offset := 1 } self
      let entries := rexlist.zip (fbp.drop 1 ++ [false])
      (entries.foldlM wmStep st0).bind wmFinish

/-- The expansion phase of `Rex::fit_clone` (`rex.rs` lines 126-138):
copy each node, replacing every `Fat` node by a `Sum` node with
all-zero placeholder children followed by the `Thin` rules produced by
FIT, while recording in `id_map` the new position of every old node. -/
def fitExpandGo : List RexKind → List RexKind → List Nat →
    Option (List RexKind × List Nat)
  | [], acc, idMap => some (acc, idMap)
  | k :: rest, acc, idMap =>
    match k with
    | RexKind.Fat far =>
      (fit far).bind (fun tars =>
        fitExpandGo rest
          (acc ++ RexKind.Sum ⟨List.replicate tars.length 0⟩ :: tars.map RexKind.Thin)
          (idMap ++ [acc.length]))
    | _ => fitExpandGo rest (acc ++ [k]) (idMap ++ [acc.length])

/-- The positive branch of the id-rewriting phase of `Rex::fit_clone`:
every child index must be positive (`assert!(*id > 0)`) and within
`id_map`'s range (a Rust index panic otherwise), and is replaced by
`id_map[*id]`. -/
def mapIdsPos (idMap : List Nat) : List Nat → Option (List Nat)
  | [] => some []
  | i :: is =>
    if 0 < i then
      match idMap.get? i with
      | some v => (mapIdsPos idMap is).map (fun l => v :: l)
      | none => none
    else none

/-- The all-zero branch of the id-rewriting phase: every child index
must be zero (`assert_eq!(*id, 0)`) and the k-th is replaced by
`ndx + k` (1-based). -/
def rewriteZeros (ndx k : Nat) : List Nat → Option (List Nat)
  | [] => some []
  | i :: is =>
    if i = 0 then (rewriteZeros ndx (k + 1) is).map (fun l => (ndx + k) :: l)
    else none

/-- Id rewriting for one `Product`/`Sum` node at new position `ndx`
(`rex.rs` lines 140-162): an empty child list panics; a positive first
child selects the `id_map` branch, a zero first child the consecutive
rewrite branch. -/
def remapIds (idMap : List Nat) (ndx : Nat) : List Nat → Option (List Nat)
  | [] => none
  | first :: rest =>
    if 0 < first then mapIdsPos idMap (first :: rest)
    else rewriteZeros ndx 1 (first :: rest)

/-- The id-rewriting phase of `Rex::fit_clone` over the whole new node
array, `ndx` being the position of the head of the remaining list. -/
def remapAllGo (idMap : List Nat) (ndx : Nat) : List RexKind → Option (List RexKind)
  | [] => some []
  | k :: rest =>
    match k with
    | RexKind.Product t =>
      (remapIds idMap ndx t.ids).bind (fun ids =>
        (remapAllGo idMap (ndx + 1) rest).map (fun l => RexKind.Product ⟨ids⟩ :: l))
    | RexKind.Sum t =>
      (remapIds idMap ndx t.ids).bind (fun ids =>
        (remapAllGo idMap (ndx + 1) rest).map (fun l => RexKind.Sum ⟨ids⟩ :: l))
    | _ => (remapAllGo idMap (ndx + 1) rest).map (fun l => k :: l)

/-- `Rex::fit_clone` (`rex.rs` lines 122-165): expansion phase then id
rewriting. -/
def Rex.fit_clone (r : Rex) : Option Rex :=
  (fitExpandGo r.kinds [] []).bind (fun p =>
    (remapAllGo p.2 0 p.1).map (fun ks => (⟨ks⟩ : Rex)))

/-- Typed errors of the compilation pass (`error.rs`,
`AscesisErrorKind`; only the variants the pass produces). -/
inductive CompileError where
  | InvalidAST
  | FatLeak
  | UnexpectedDependency (name : String)
deriving DecidableEq

/-- Free term algebra standing in for `aces::PartialContent` (a type of
the external `aces` crate, outside this repository).  The claims under
study only concern which typed error the pass produces, so content
values are recorded symbolically: `empty` is `PartialContent::new`,
`tar` the compilation of a thin rule, `named` a context lookup, `mul`
and `add` the `*=` / `+=` combinators. -/
inductive Content where
  | empty
  | tar (t : ThinArrowRule)
  | named (name : String)
  | mul (a b : Content)
  | add (a b : Content)
deriving DecidableEq

/-- The context handle, reduced to its content-lookup capability
(`ctx.get_content(name)`). -/
abbrev Ctx := String → Option Content

/-- Decidable equality for compile results. -/
instance : DecidableEq (Except CompileError Content) := fun a b =>
  match a, b with
  | Except.ok x, Except.ok y =>
    if h : x = y then isTrue (by simp [h]) else isFalse (by simp [h])
  | Except.error x, Except.error y =>
    if h : x = y then isTrue (by simp [h]) else isFalse (by simp [h])
  | Except.ok _, Except.error _ => isFalse (by simp)
  | Except.error _, Except.ok _ => isFalse (by simp)

/-- Child scan of the validation loop of `Rex::get_compiled_content`
(`rex.rs` lines 197-213): a child index `i ≤ pos` returns
`InvalidAST`; a child index `i ≥ len` makes the write
`parent_pos[i] = pos` panic (modelled `none`); otherwise the parent of
`i` is recorded. -/
def assignParents (len pos : Nat) (parent : List Nat) :
    List Nat → Option (Except CompileError (List Nat))
  | [] => some (Except.ok parent)
  | i :: is =>
    if pos < i then
      if i < len then assignParents len pos (parent.set i pos) is else none
    else some (Except.error CompileError.InvalidAST)

/-- The validation loop of `Rex::get_compiled_content`: walk the array
in order; each `Product`/`Sum` node gets an empty merged-content slot
and has its children's parents assigned. -/
def validateGo (len : Nat) (merged : List (Option Content)) (parent : List Nat)
    (pos : Nat) : List RexKind →
    Option (Except CompileError (List (Option Content) × List Nat))
  | [] => some (Except.ok (merged, parent))
  | k :: rest =>
    match k with
    | RexKind.Product t =>
      match assignParents len pos parent t.ids with
      | none => none
      | some (Except.error e) => some (Except.error e)
      | some (Except.ok parent2) =>
        validateGo len (merged.set pos (some Content.empty)) parent2 (pos + 1) rest
    | RexKind.Sum t =>
      match assignParents len pos parent t.ids with
      | none => none
      | some (Except.error e) => some (Except.error e)
      | some (Except.ok parent2) =>
        validateGo len (merged.set pos (some Content.empty)) parent2 (pos + 1) rest
    | _ => validateGo len merged parent (pos + 1) rest

/-- The per-node content of the backward compile loop (`rex.rs` lines
216-252): thin rules compile directly (`ThinArrowRule::
get_compiled_content` always succeeds), a surviving `Fat` node is the
`FatLeak` error, named references are looked up in the context,
`Product`/`Sum` nodes take their merged slot (`InvalidAST` if absent). -/
def compileStepContent (ctx : Ctx) (kinds : List RexKind)
    (merged : List (Option Content)) (pos : Nat) :
    Except CompileError (Content × List (Option Content)) :=
  match kinds.getD pos (RexKind.Product ⟨[]⟩) with
  | RexKind.Thin t => Except.ok (Content.tar t, merged)
  | RexKind.Fat _ => Except.error CompileError.FatLeak
  | RexKind.Immediate i =>
    match ctx i.name with
    | some c => Except.ok (c, merged)
    | none => Except.error (CompileError.UnexpectedDependency i.name)
  | RexKind.Instance i =>
    match ctx i.name with
    | some c => Except.ok (c, merged)
    | none => Except.error (CompileError.UnexpectedDependency i.name)
  | RexKind.Product _ =>
    match merged.getD pos none with
    | some c => Except.ok (c, merged.set pos none)
    | none => Except.error CompileError.InvalidAST
  | RexKind.Sum _ =>
    match merged.getD pos none with
    | some c => Except.ok (c, merged.set pos none)
    | none => Except.error CompileError.InvalidAST

/-- The backward compile loop (`rex.rs` lines 215-273), from the given
position down to 0: compute the node's content, at position 0 return
it, otherwise merge it into the parent's slot (`*=` under a `Product`
parent, `+=` under a `Sum` parent, `InvalidAST` if the parent is not a
tree node or its slot is empty). -/
def compileDown (ctx : Ctx) (kinds : List RexKind) (parent : List Nat) :
    Nat → List (Option Content) → Except CompileError Content
  | 0, merged =>
    match compileStepContent ctx kinds merged 0 with
    | Except.error e => Except.error e
    | Except.ok (content, _) => Except.ok content
  | p + 1, merged =>
    match compileStepContent ctx kinds merged (p + 1) with
    | Except.error e => Except.error e
    | Except.ok (content, merged2) =>
      match merged2.getD (parent.getD (p + 1) 0) none with
      | none => Except.error CompileError.InvalidAST
      | some pc =>
        match kinds.getD (parent.getD (p + 1) 0) (RexKind.Product ⟨[]⟩) with
        | RexKind.Product _ =>
          compileDown ctx kinds parent p
            (merged2.set (parent.getD (p + 1) 0) (some (Content.mul pc content)))
        | RexKind.Sum _ =>
          compileDown ctx kinds parent p
            (merged2.set (parent.getD (p + 1) 0) (some (Content.add pc content)))
        | _ => Except.error CompileError.InvalidAST

/-- The body of `Rex::get_compiled_content` after the `fit_clone` call:
empty arrays compile to fresh content; otherwise validation then the
backward fold. -/
def compilePass (ctx : Ctx) (rex : Rex) : Option (Except CompileError Content) :=
  match rex.kinds with
  | [] => some (Except.ok Content.empty)
  | _ =>
    match validateGo rex.kinds.length (List.replicate rex.kinds.length none)
        (List.replicate rex.kinds.length 0) 0 rex.kinds with
    | none => none
    | some (Except.error e) => some (Except.error e)
    | some (Except.ok (merged, parent)) =>
      some (compileDown ctx rex.kinds parent (rex.kinds.length - 1) merged)

/-- `Rex::get_compiled_content` (`rex.rs` lines 187-276): normalize
with `fit_clone`, then run the compilation pass. -/
def Rex.get_compiled_content (ctx : Ctx) (r : Rex) : Option (Except CompileError Content) :=
  r.fit_clone.bind (compilePass ctx)

/-- Union of the monomial sets of the cause polynomials of a rule list. -/
def causeUnion (ts : List ThinArrowRule) : Finset Mono :=
  ts.foldr (fun t acc => t.cause.monomials ∪ acc) ∅

/-- Union of the monomial sets of the effect polynomials of a rule list. -/
def effectUnion (ts : List ThinArrowRule) : Finset Mono :=
  ts.foldr (fun t acc => t.effect.monomials ∪ acc) ∅

/-- Union of the monomial sets of the cause polynomials of a fat arrow
rule's parts. -/
def partsCauseUnion (ps : List FatArrow) : Finset Mono :=
  ps.foldr (fun p acc => p.cause.monomials ∪ acc) ∅

/-- Union of the monomial sets of the effect polynomials of a fat arrow
rule's parts. -/
def partsEffectUnion (ps : List FatArrow) : Finset Mono :=
  ps.foldr (fun p acc => p.effect.monomials ∪ acc) ∅

/-- Whether a node is a `Fat` node. -/
def RexKind.isFat : RexKind → Bool
  | RexKind.Fat _ => true
  | _ => false

/-- Whether a node is a `Product` or `Sum` tree node. -/
def isTreeNode : RexKind → Bool
  | RexKind.Product _ => true
  | RexKind.Sum _ => true
  | _ => false

/-- The child-index tree of the `Product` or `Sum` node at a position,
if the node there is such a node. -/
def treeAt (kinds : List RexKind) (pos : Nat) : Option RexTree :=
  match kinds.get? pos with
  | some (RexKind.Product t) => some t
  | some (RexKind.Sum t) => some t
  | _ => none

/-- Forward-only child indices over a node list: every child index of
a `Product` or `Sum` node points strictly past the node's position. -/
def fwdKinds (ks : List RexKind) : Prop :=
  ∀ pos t, treeAt ks pos = some t → ∀ i ∈ t.ids, pos < i

/-- The arena invariant stated by the spec: every child index of a
`Product` or `Sum` node points strictly past the node's own position. -/
def forwardOnly (r : Rex) : Prop := fwdKinds r.kinds

/-- Invariant bundle of the sum-branch loop of `Rex::with_more`: the
offset tracks the array length, the array is forward-only, pending
factor ids point past the anchor, recorded addend roots are positive,
and the anchor is positive and strictly below the offset. -/
def WMInv (st : WMState) : Prop :=
  st.offset = st.kinds.length
  ∧ fwdKinds st.kinds
  ∧ (∀ i ∈ st.productIds, st.anchor < i)
  ∧ (∀ i ∈ st.sumIds, 0 < i)
  ∧ 0 < st.anchor
  ∧ st.anchor < st.offset

/-- The `Rex` values produced by the builder: a single rule or instance
node (the `From` impls of `rex.rs` lines 279-301), closed under
`Rex::with_more` over such values. -/
inductive Built : Rex → Prop where
  | thin (t : ThinArrowRule) : Built ⟨[RexKind.Thin t]⟩
  | fat (f : FatArrowRule) : Built ⟨[RexKind.Fat f]⟩
  | immediate (i : CesImmediate) : Built ⟨[RexKind.Immediate i]⟩
  | inst (i : CesInstance) : Built ⟨[RexKind.Instance i]⟩
  | more (r : Rex) (l : List (Option BinOp × Rex)) (r' : Rex) :
      Built r → (∀ p ∈ l, Built p.2) → Rex.with_more r l = some r' → Built r'

/-- The fat arrow rule of the chain `a <= b => c` (the `test_fit_fork`
input): parts `(cause b, effect a)` and `(cause b, effect c)`. -/
def farABC : FatArrowRule :=
  { parts := [ { cause := Polynomial.fromNode "b", effect := Polynomial.fromNode "a" },
               { cause := Polynomial.fromNode "b", effect := Polynomial.fromNode "c" } ] }

/-- Expected first FIT output rule for `a <= b => c`: dots `[b]`, no
cause, effect the two-monomial sum `{a} + {c}`. -/
def tarBout : ThinArrowRule :=
  { dots := {"b"}
    cause := Polynomial.default
    effect := (Polynomial.fromNode "a").add_assign (Polynomial.fromNode "c") }

/-- Expected second FIT output rule for `a <= b => c`: dots `[a, c]`,
cause `{b}`, no effect. -/
def tarACin : ThinArrowRule :=
  { dots := {"a", "c"}
    cause := Polynomial.fromNode "b"
    effect := Polynomial.default }

/-- The fat arrow rule of `a => b` (the `test_fit_arrow` input). -/
def farAB : FatArrowRule :=
  { parts := [ { cause := Polynomial.fromNode "a", effect := Polynomial.fromNode "b" } ] }

/-- The empty context: no named content compiled yet. -/
def ctx0 : Ctx := fun _ => none

/-- A sample thin rule used in concrete witnesses. -/
def tarA : ThinArrowRule :=
  { dots := {"a"}, cause := Polynomial.default, effect := Polynomial.fromNode "b" }

/-- A single-node `Rex` whose `Product` root holds the out-of-range
child index 1. -/
def rexOOR : Rex := ⟨[RexKind.Product ⟨[1]⟩]⟩

/-- A `Rex` whose last node holds the backward child index 1 (positive
and in range). -/
def rexBack : Rex := ⟨[RexKind.Product ⟨[1]⟩, RexKind.Thin tarA, RexKind.Sum ⟨[1]⟩]⟩

/-- A sample non-flat two-monomial polynomial. -/
def polyNF : Polynomial :=
  { monomials := {{"a"}, {"b"}}, is_flat := false, warnings := 0 }

/-- The flattening of `polyNF`. -/
def polyNFflat : Polynomial :=
  { monomials := {{"a", "b"}}, is_flat := true, warnings := 0 }

/-- The cause-only thin rule produced by FIT for `a => b`. -/
def tarB : ThinArrowRule :=
  { dots := {"b"}, cause := Polynomial.fromNode "a", effect := Polynomial.default }

/-- The `fit_clone` normal form of the single-node rex `a => b` (the
`test_fit_arrow` expectation). -/
def rexFitAB : Rex :=
  ⟨[RexKind.Sum ⟨[1, 2]⟩, RexKind.Thin tarA, RexKind.Thin tarB]⟩

/-- The compilation result of the rex `a => b` under the empty context. -/
def resAB : Except CompileError Content :=
  Except.ok (Content.add (Content.add Content.empty (Content.tar tarB)) (Content.tar tarA))

/-- C6: Polynomial multiplication distributes over addition: for all
Polynomials P, Q, R, multiplying P by the `add_assign` sum of Q and R
yields the same monomial set as `add_assign`-adding P times Q to P
times R (multiplication via `multiply_assign`). -/
theorem C6_mul_distributes_over_add (P Q R : Polynomial) :
    (P.multiply_assign [Q.add_assign R]).monomials
      = ((P.multiply_assign [Q]).add_assign (P.multiply_assign [R])).monomials := by
  simp only [Polynomial.multiply_assign, Polynomial.add_assign, Polynomial.mulFactor,
    List.foldl_cons, List.foldl_nil]
  exact Finset.image₂_union_right

/-- C7: `flattened_clone` is idempotent: whenever it returns a result,
re-flattening that result returns it unchanged; and a polynomial whose
`is_flat` flag is set is returned unchanged. -/
theorem C7_flatten_idempotent :
    (∀ p q : Polynomial, p.flattened_clone = some q → q.flattened_clone = some q)
  ∧ (∀ p : Polynomial, p.is_flat = true → p.flattened_clone = some p) := by
  constructor
  · intro p q h
    unfold Polynomial.flattened_clone at h
    by_cases hf : p.is_flat
    · rw [if_pos hf] at h
      cases h
      unfold Polynomial.flattened_clone
      rw [if_pos hf]
    · rw [if_neg hf] at h
      by_cases he : p.monomials = ∅
      · rw [if_pos he] at h; cases h
      · rw [if_neg he] at h
        cases h
        rfl
  · intro p h
    unfold Polynomial.flattened_clone
    rw [if_pos h]

/-- C7 witness: a concrete non-flat polynomial flattens to a fixed
point of `flattened_clone`, and the default (flat) polynomial is
returned unchanged. -/
theorem C7_flatten_idempotent_witness :
    (polyNF.flattened_clone = some polyNFflat
      ∧ polyNFflat.flattened_clone = some polyNFflat)
  ∧ (Polynomial.default.is_flat = true
      ∧ Polynomial.default.flattened_clone = some Polynomial.default) :=
  ⟨⟨by decide, C7_flatten_idempotent.1 polyNF polyNFflat (by decide)⟩,
   ⟨rfl, C7_flatten_idempotent.2 Polynomial.default rfl⟩⟩

/-- C8: adding a copy of a polynomial to itself leaves the monomial set
unchanged and pushes exactly one `SumIdempotency` warning per monomial
(`add_assign` is total, so warnings never cause a failure). -/
theorem C8_sum_self_idempotent (p : Polynomial) :
    (p.add_assign p).monomials = p.monomials
  ∧ (p.add_assign p).warnings
      = p.warnings + Multiset.map Warning.SumIdempotency p.monomials.val := by
  constructor
  · simp [Polynomial.add_assign]
  · simp [Polynomial.add_assign]

/-- C10: `flattened_clone` is partial exactly on the polynomials whose
`is_flat` flag is cleared and whose monomial set is empty (there it
panics, modelled `none`), and such a value is reachable by
`add_assign` of two default polynomials. -/
theorem C10_flatten_partiality :
    (∀ p : Polynomial,
      p.flattened_clone = none ↔ (p.is_flat = false ∧ p.monomials = ∅))
  ∧ (Polynomial.default.add_assign Polynomial.default).flattened_clone = none := by
  constructor
  · intro p
    unfold Polynomial.flattened_clone
    by_cases hf : p.is_flat
    · rw [if_pos hf]
      simp [hf]
    · rw [if_neg hf]
      by_cases he : p.monomials = ∅
      · rw [if_pos he]
        simp [he, Bool.not_eq_true] at hf ⊢
        exact hf
      · rw [if_neg he]
        simp [he]
  · decide

/-- C1: the fat arrow rule of `a <= b => c` has parts
`(cause b, effect a)` and `(cause b, effect c)`, and FIT turns it into
exactly two thin rules: dots `[b]` with empty cause and two-monomial
effect `{a} + {c}`, and dots `[a, c]` with cause `{b}` and empty
effect. -/
theorem C1_fit_fork :
    FatArrowRule.from_parts (Polynomial.fromNode "a")
        [(BinOp.FatRx, Polynomial.fromNode "b"), (BinOp.FatTx, Polynomial.fromNode "c")]
      = some farABC
  ∧ fit farABC = some [tarBout, tarACin] := by
  constructor
  · decide
  · decide

/-- Length bookkeeping of one merge-scan insertion: a merge keeps the
accumulator length, a push grows it by one. -/
theorem mergeInsert_length (e : ThinArrowRule → ThinArrowRule → Bool)
    (m : ThinArrowRule → ThinArrowRule → ThinArrowRule)
    (acc : List ThinArrowRule) (t : ThinArrowRule) :
    (mergeInsert e m acc t).1.length + cond (mergeInsert e m acc t).2 1 0
      = acc.length + 1 := by
  induction acc with
  | nil => simp [mergeInsert]
  | cons a acc ih =>
    unfold mergeInsert
    cases h : e a t with
    | true => simp [h]
    | false =>
      simp only [h, Bool.false_eq_true, if_false, List.length_cons]
      omega

theorem mergePassGo_length (e : ThinArrowRule → ThinArrowRule → Bool)
    (m : ThinArrowRule → ThinArrowRule → ThinArrowRule) :
    ∀ (ts acc : List ThinArrowRule) (flag : Bool),
      (mergePassGo e m acc flag ts).1.length ≤ acc.length + ts.length
    ∧ (flag = false → (mergePassGo e m acc flag ts).2 = true →
        (mergePassGo e m acc flag ts).1.length < acc.length + ts.length) := by
  intro ts
  induction ts with
  | nil =>
    intro acc flag
    refine ⟨by simp [mergePassGo], ?_⟩
    intro hf ht
    simp [mergePassGo] at ht
    rw [hf] at ht
    cases ht
  | cons t ts ih =>
    intro acc flag
    have hlen := mergeInsert_length e m acc t
    simp only [mergePassGo, List.length_cons]
    cases h : (mergeInsert e m acc t).2 with
    | true =>
      rw [h] at hlen
      simp only [cond_true] at hlen
      have h1 := (ih (mergeInsert e m acc t).1 (flag || true)).1
      refine ⟨by omega, ?_⟩
      intro hf ht
      omega
    | false =>
      rw [h] at hlen
      simp only [cond_false] at hlen
      have h1 := (ih (mergeInsert e m acc t).1 (flag || false)).1
      refine ⟨by omega, ?_⟩
      intro hf ht
      subst hf
      simp only [Bool.or_false, Bool.false_or] at ht ⊢
      have h2 := (ih (mergeInsert e m acc t).1 false).2 rfl ht
      omega

theorem fitPass_length (tx rx : List ThinArrowRule) :
    (fitPass tx rx).1.length + (fitPass tx rx).2.1.length ≤ tx.length + rx.length
  ∧ ((fitPass tx rx).2.2 = true →
      (fitPass tx rx).1.length + (fitPass tx rx).2.1.length < tx.length + rx.length) := by
  simp only [fitPass, mergePass]
  have ht2 := mergePassGo_length eqDots mergeEffect tx [] false
  have hr2 := mergePassGo_length eqDots mergeCause rx [] false
  have ht3 := mergePassGo_length eqEffect mergeDots
    (mergePassGo eqDots mergeEffect [] false tx).1 [] false
  have hr3 := mergePassGo_length eqCause mergeDots
    (mergePassGo eqDots mergeCause [] false rx).1 [] false
  simp only [List.length_nil, Nat.zero_add] at ht2 hr2 ht3 hr3
  refine ⟨by omega, ?_⟩
  intro hm
  simp only [Bool.or_eq_true] at hm
  rcases hm with ((h | h) | h) | h
  · have := ht2.2 trivial h; omega
  · have := hr2.2 trivial h; omega
  · have := ht3.2 trivial h; omega
  · have := hr3.2 trivial h; omega

theorem fitLoop_isSome :
    ∀ (n : Nat) (tx rx : List ThinArrowRule), tx.length + rx.length < n →
      (fitLoop n tx rx).isSome = true := by
  intro n
  induction n with
  | zero => intro tx rx h; omega
  | succ k ih =>
    intro tx rx h
    simp only [fitLoop]
    cases hp : (fitPass tx rx).2.2 with
    | true =>
      rw [if_pos rfl]
      apply ih
      have := (fitPass_length tx rx).2 hp
      omega
    | false =>
      simp

/-- C5: the FIT merge fixpoint loop terminates: the fuel
`tx.length + rx.length + 1` always suffices, because a pass that is
not at the fixpoint strictly reduces the total rule count, which is
finite. -/
theorem C5_fit_loop_terminates (tx rx : List ThinArrowRule) :
    (fitLoop (tx.length + rx.length + 1) tx rx).isSome = true :=
  fitLoop_isSome (tx.length + rx.length + 1) tx rx (by omega)


/-- Membership in an appended pair of Fat-free lists. -/
theorem noFat_append (acc l2 : List RexKind)
    (h1 : ∀ k ∈ acc, k.isFat = false) (h2 : ∀ k ∈ l2, k.isFat = false) :
    ∀ k ∈ acc ++ l2, k.isFat = false := by
  intro k hk
  rcases List.mem_append.1 hk with h | h
  · exact h1 k h
  · exact h2 k h

theorem fitExpandGo_noFat :
    ∀ (olds acc : List RexKind) (idMap : List Nat) (nk : List RexKind) (im : List Nat),
      fitExpandGo olds acc idMap = some (nk, im) →
      (∀ k ∈ acc, k.isFat = false) → ∀ k ∈ nk, k.isFat = false := by
  intro olds
  induction olds with
  | nil =>
    intro acc idMap nk im h hacc
    simp only [fitExpandGo] at h
    cases h
    exact hacc
  | cons k0 rest ih =>
    intro acc idMap nk im h hacc
    cases k0
    case Fat far =>
      simp only [fitExpandGo] at h
      cases hf : fit far with
      | none => rw [hf] at h; cases h
      | some tars =>
        rw [hf] at h
        simp only [Option.some_bind] at h
        refine ih _ _ _ _ h (noFat_append _ _ hacc ?_)
        intro k hk2
        rcases List.mem_cons.1 hk2 with h2 | h2
        · rw [h2]; rfl
        · rcases List.mem_map.1 h2 with ⟨t, _, ht⟩
          rw [← ht]; rfl
    all_goals
      simp only [fitExpandGo] at h
      refine ih _ _ _ _ h (noFat_append _ _ hacc ?_)
      intro k hk2
      rw [List.mem_singleton.1 hk2]
      rfl

theorem remapAllGo_noFat :
    ∀ (ks : List RexKind) (idMap : List Nat) (ndx : Nat) (out : List RexKind),
      remapAllGo idMap ndx ks = some out →
      (∀ k ∈ ks, k.isFat = false) → ∀ k ∈ out, k.isFat = false := by
  intro ks
  induction ks with
  | nil =>
    intro idMap ndx out h _
    simp only [remapAllGo] at h
    cases h
    intro k hk
    cases hk
  | cons k0 rest ih =>
    intro idMap ndx out h hks
    cases k0
    case Product t =>
      simp only [remapAllGo] at h
      cases h1 : remapIds idMap ndx t.ids with
      | none => rw [h1] at h; cases h
      | some ids =>
        rw [h1] at h
        simp only [Option.some_bind] at h
        cases h2 : remapAllGo idMap (ndx + 1) rest with
        | none => rw [h2] at h; cases h
        | some l =>
          rw [h2] at h
          simp only [Option.map_some'] at h
          cases h
          intro k hk
          rcases List.mem_cons.1 hk with h3 | h3
          · rw [h3]; rfl
          · exact ih _ _ _ h2 (fun k2 hk2 => hks k2 (List.mem_cons_of_mem _ hk2)) k h3
    case Sum t =>
      simp only [remapAllGo] at h
      cases h1 : remapIds idMap ndx t.ids with
      | none => rw [h1] at h; cases h
      | some ids =>
        rw [h1] at h
        simp only [Option.some_bind] at h
        cases h2 : remapAllGo idMap (ndx + 1) rest with
        | none => rw [h2] at h; cases h
        | some l =>
          rw [h2] at h
          simp only [Option.map_some'] at h
          cases h
          intro k hk
          rcases List.mem_cons.1 hk with h3 | h3
          · rw [h3]; rfl
          · exact ih _ _ _ h2 (fun k2 hk2 => hks k2 (List.mem_cons_of_mem _ hk2)) k h3
    all_goals
      simp only [remapAllGo] at h
      cases h2 : remapAllGo idMap (ndx + 1) rest with
      | none => rw [h2] at h; cases h
      | some l =>
        rw [h2] at h
        simp only [Option.map_some'] at h
        cases h
        intro k hk
        rcases List.mem_cons.1 hk with h3 | h3
        · rw [h3]
          exact hks _ (List.mem_cons_self _ _)
        · exact ih _ _ _ h2 (fun k2 hk2 => hks k2 (List.mem_cons_of_mem _ hk2)) k h3


theorem getD_mem_or_default (kinds : List RexKind) (pos : Nat) (d : RexKind) :
    kinds.getD pos d ∈ kinds ∨ kinds.getD pos d = d := by
  cases h : kinds.get? pos with
  | none =>
    right
    rw [List.get?_eq_getElem?] at h
    simp [List.getD, h]
  | some k =>
    left
    have h2 : kinds.getD pos d = k := by
      rw [List.get?_eq_getElem?] at h
      simp [List.getD, h]
    rw [h2]
    exact List.get?_mem h

theorem compileStepContent_fatLeak_isFat (ctx : Ctx) (kinds : List RexKind)
    (merged : List (Option Content)) (pos : Nat)
    (h : compileStepContent ctx kinds merged pos = Except.error CompileError.FatLeak) :
    (kinds.getD pos (RexKind.Product ⟨[]⟩)).isFat = true := by
  unfold compileStepContent at h
  cases hk : kinds.getD pos (RexKind.Product ⟨[]⟩) with
  | Fat f => rfl
  | Thin t => rw [hk] at h; simp at h
  | Immediate i =>
    rw [hk] at h
    simp only [] at h
    cases hc : ctx i.name <;> rw [hc] at h <;> simp at h
  | Instance i =>
    rw [hk] at h
    simp only [] at h
    cases hc : ctx i.name <;> rw [hc] at h <;> simp at h
  | Product t =>
    rw [hk] at h
    simp only [] at h
    cases hm : merged.getD pos none <;> rw [hm] at h <;> simp at h
  | Sum t =>
    rw [hk] at h
    simp only [] at h
    cases hm : merged.getD pos none <;> rw [hm] at h <;> simp at h

theorem compileStepContent_no_fatLeak (ctx : Ctx) (kinds : List RexKind)
    (merged : List (Option Content)) (pos : Nat)
    (hnf : ∀ k ∈ kinds, k.isFat = false) :
    compileStepContent ctx kinds merged pos ≠ Except.error CompileError.FatLeak := by
  intro h
  have hf := compileStepContent_fatLeak_isFat ctx kinds merged pos h
  rcases getD_mem_or_default kinds pos (RexKind.Product ⟨[]⟩) with hm | hm
  · rw [hnf _ hm] at hf
    cases hf
  · rw [hm] at hf
    cases hf

theorem compileDown_no_fatLeak (ctx : Ctx) (kinds : List RexKind) (parent : List Nat)
    (hnf : ∀ k ∈ kinds, k.isFat = false) :
    ∀ (p : Nat) (merged : List (Option Content)),
      compileDown ctx kinds parent p merged ≠ Except.error CompileError.FatLeak := by
  intro p
  induction p with
  | zero =>
    intro merged h
    unfold compileDown at h
    cases hs : compileStepContent ctx kinds merged 0 with
    | error e =>
      rw [hs] at h
      simp only [] at h
      cases h
      exact compileStepContent_no_fatLeak ctx kinds merged 0 hnf hs
    | ok pr =>
      obtain ⟨content, merged2⟩ := pr
      rw [hs] at h
      simp only [] at h
      cases h
  | succ q ih =>
    intro merged h
    unfold compileDown at h
    cases hs : compileStepContent ctx kinds merged (q + 1) with
    | error e =>
      rw [hs] at h
      simp only [] at h
      cases h
      exact compileStepContent_no_fatLeak ctx kinds merged (q + 1) hnf hs
    | ok pr =>
      obtain ⟨content, merged2⟩ := pr
      rw [hs] at h
      simp only [] at h
      cases hm : merged2.getD (parent.getD (q + 1) 0) none with
      | none => rw [hm] at h; simp at h
      | some pc =>
        rw [hm] at h
        simp only [] at h
        cases hk : kinds.getD (parent.getD (q + 1) 0) (RexKind.Product ⟨[]⟩) with
        | Product t =>
          rw [hk] at h
          simp only [] at h
          exact ih _ h
        | Sum t =>
          rw [hk] at h
          simp only [] at h
          exact ih _ h
        | Thin t => rw [hk] at h; simp at h
        | Fat f => rw [hk] at h; simp at h
        | Immediate i2 => rw [hk] at h; simp at h
        | Instance i2 => rw [hk] at h; simp at h

theorem assignParents_error_invalid (len pos : Nat) :
    ∀ (ids : List Nat) (parent : List Nat) (e : CompileError),
      assignParents len pos parent ids = some (Except.error e) →
      e = CompileError.InvalidAST := by
  intro ids
  induction ids with
  | nil =>
    intro parent e h
    simp only [assignParents] at h
    cases h
  | cons i is ih =>
    intro parent e h
    simp only [assignParents] at h
    by_cases h1 : pos < i
    · rw [if_pos h1] at h
      by_cases h2 : i < len
      · rw [if_pos h2] at h
        exact ih _ _ h
      · rw [if_neg h2] at h
        cases h
    · rw [if_neg h1] at h
      cases h
      rfl

theorem validateGo_error_invalid (len : Nat) :
    ∀ (ks : List RexKind) (merged : List (Option Content)) (parent : List Nat)
      (pos : Nat) (e : CompileError),
      validateGo len merged parent pos ks = some (Except.error e) →
      e = CompileError.InvalidAST := by
  intro ks
  induction ks with
  | nil =>
    intro merged parent pos e h
    simp only [validateGo] at h
    cases h
  | cons k rest ih =>
    intro merged parent pos e h
    cases k
    case Product t =>
      simp only [validateGo] at h
      cases ha : assignParents len pos parent t.ids with
      | none => rw [ha] at h; cases h
      | some r =>
        rw [ha] at h
        cases r with
        | error e2 =>
          simp at h
          rw [← h]
          exact assignParents_error_invalid len pos t.ids parent e2 ha
        | ok parent2 => exact ih _ _ _ _ h
    case Sum t =>
      simp only [validateGo] at h
      cases ha : assignParents len pos parent t.ids with
      | none => rw [ha] at h; cases h
      | some r =>
        rw [ha] at h
        cases r with
        | error e2 =>
          simp at h
          rw [← h]
          exact assignParents_error_invalid len pos t.ids parent e2 ha
        | ok parent2 => exact ih _ _ _ _ h
    all_goals
      simp only [validateGo] at h
      exact ih _ _ _ _ h

theorem compilePass_no_fatLeak (ctx : Ctx) (rex : Rex)
    (hnf : ∀ k ∈ rex.kinds, k.isFat = false) :
    compilePass ctx rex ≠ some (Except.error CompileError.FatLeak) := by
  intro h
  unfold compilePass at h
  cases hks : rex.kinds with
  | nil => rw [hks] at h; simp at h
  | cons a b =>
    rw [hks] at h hnf
    cases hv : validateGo (a :: b).length (List.replicate (a :: b).length none)
        (List.replicate (a :: b).length 0) 0 (a :: b) with
    | none => rw [hv] at h; simp at h
    | some r =>
      rw [hv] at h
      cases r with
      | error e =>
        have he := validateGo_error_invalid (a :: b).length (a :: b) _ _ _ _ hv
        simp at h
        rw [he] at h
        cases h
      | ok pr =>
        obtain ⟨merged, parent⟩ := pr
        simp at h
        exact compileDown_no_fatLeak ctx (a :: b) parent hnf _ _ h


/-- C4: for every `Rex`, whenever `fit_clone` returns (it can panic on
malformed input), the result contains no `Fat` node; consequently a
`get_compiled_content` run that returns a result never returns the
`FatLeak` error. -/
theorem C4_no_fat_leak :
    (∀ r r2 : Rex, r.fit_clone = some r2 → ∀ k ∈ r2.kinds, k.isFat = false)
  ∧ (∀ (ctx : Ctx) (r : Rex) (res : Except CompileError Content),
      r.get_compiled_content ctx = some res →
      res ≠ Except.error CompileError.FatLeak) := by
  have hfc : ∀ r r2 : Rex, r.fit_clone = some r2 → ∀ k ∈ r2.kinds, k.isFat = false := by
    intro r r2 h
    unfold Rex.fit_clone at h
    cases he : fitExpandGo r.kinds [] [] with
    | none => rw [he] at h; cases h
    | some p =>
      rw [he] at h
      simp only [Option.some_bind] at h
      cases hm : remapAllGo p.2 0 p.1 with
      | none => rw [hm] at h; cases h
      | some ks =>
        rw [hm] at h
        simp only [Option.map_some'] at h
        cases h
        have h1 := fitExpandGo_noFat r.kinds [] [] p.1 p.2 he (by intro k hk; cases hk)
        exact remapAllGo_noFat p.1 p.2 0 ks hm h1
  refine ⟨hfc, ?_⟩
  intro ctx r res h hre
  unfold Rex.get_compiled_content at h
  cases hf : r.fit_clone with
  | none => rw [hf] at h; cases h
  | some r2 =>
    rw [hf] at h
    simp only [Option.some_bind] at h
    subst hre
    exact compilePass_no_fatLeak ctx r2 (hfc r r2 hf) h

/-- C4 witness: the concrete rex `a => b` fit-clones to a Fat-free
array and compiles without a fat leak. -/
theorem C4_no_fat_leak_witness :
    (∀ k ∈ rexFitAB.kinds, k.isFat = false)
  ∧ resAB ≠ Except.error CompileError.FatLeak :=
  ⟨C4_no_fat_leak.1 ⟨[RexKind.Fat farAB]⟩ rexFitAB (by decide),
   C4_no_fat_leak.2 ctx0 ⟨[RexKind.Fat farAB]⟩ resAB (by decide)⟩

end Ascesis


namespace Ascesis

theorem fitExpandGo_noFat_id :
    ∀ (olds acc : List RexKind) (idMap : List Nat),
      (∀ k ∈ olds, k.isFat = false) →
      fitExpandGo olds acc idMap
        = some (acc ++ olds, idMap ++ (List.range olds.length).map (fun j => j + acc.length)) := by
  intro olds
  induction olds with
  | nil =>
    intro acc idMap _
    simp [fitExpandGo]
  | cons k rest ih =>
    intro acc idMap hnf
    have hk : k.isFat = false := hnf k (List.mem_cons_self _ _)
    have hrest : ∀ k2 ∈ rest, k2.isFat = false :=
      fun k2 h2 => hnf k2 (List.mem_cons_of_mem _ h2)
    have hstep : fitExpandGo (k :: rest) acc idMap
        = fitExpandGo rest (acc ++ [k]) (idMap ++ [acc.length]) := by
      cases k with
      | Fat f => cases hk
      | Thin t => rfl
      | Immediate i => rfl
      | Instance i => rfl
      | Product t => rfl
      | Sum t => rfl
    rw [hstep, ih _ _ hrest]
    have h1 : acc ++ [k] ++ rest = acc ++ k :: rest := by simp
    have h2 : idMap ++ [acc.length]
          ++ List.map (fun j => j + (acc ++ [k]).length) (List.range rest.length)
        = idMap ++ List.map (fun j => j + acc.length) (List.range (k :: rest).length) := by
      simp only [List.length_cons, List.range_succ_eq_map, List.map_cons, List.map_map,
        List.append_assoc, List.singleton_append, Nat.zero_add]
      congr 1
      congr 1
      refine List.map_congr_left ?_
      intro j hj
      simp only [Function.comp, List.length_append, List.length_singleton]
      omega
    rw [h1, h2]


theorem treeAt_cons_succ (k : RexKind) (ks : List RexKind) (j : Nat) :
    treeAt (k :: ks) (j + 1) = treeAt ks j := rfl

theorem treeAt_nil (j : Nat) : treeAt [] j = none := by
  cases j <;> rfl

theorem mapIdsPos_range_id (n : Nat) :
    ∀ ids : List Nat, (∀ i ∈ ids, 0 < i ∧ i < n) →
      mapIdsPos (List.range n) ids = some ids := by
  intro ids
  induction ids with
  | nil => intro _; rfl
  | cons i is ih =>
    intro h
    have hi := h i (List.mem_cons_self _ _)
    have his : ∀ i2 ∈ is, 0 < i2 ∧ i2 < n := fun i2 h2 => h i2 (List.mem_cons_of_mem _ h2)
    simp only [mapIdsPos, if_pos hi.1]
    rw [List.get?_eq_getElem?, List.getElem?_range hi.2, ih his]
    rfl

theorem remapIds_range_id (n ndx : Nat) (ids : List Nat)
    (hne : ids ≠ []) (h : ∀ i ∈ ids, 0 < i ∧ i < n) :
    remapIds (List.range n) ndx ids = some ids := by
  cases ids with
  | nil => cases hne rfl
  | cons i is =>
    have hi := h i (List.mem_cons_self _ _)
    simp only [remapIds, if_pos hi.1]
    exact mapIdsPos_range_id n (i :: is) h

theorem remapAllGo_range_id (n : Nat) :
    ∀ (ks : List RexKind) (ndx : Nat),
      (∀ j t, treeAt ks j = some t → t.ids ≠ [] ∧ ∀ i ∈ t.ids, 0 < i ∧ i < n) →
      remapAllGo (List.range n) ndx ks = some ks := by
  intro ks
  induction ks with
  | nil => intro ndx _; rfl
  | cons k rest ih =>
    intro ndx h
    have hrest : ∀ j t, treeAt rest j = some t → t.ids ≠ [] ∧ ∀ i ∈ t.ids, 0 < i ∧ i < n :=
      fun j t ht => h (j + 1) t ((treeAt_cons_succ k rest j).symm ▸ ht)
    cases k with
    | Product t =>
      have h0 := h 0 t rfl
      simp only [remapAllGo]
      rw [remapIds_range_id n ndx t.ids h0.1 h0.2, ih (ndx + 1) hrest]
      rfl
    | Sum t =>
      have h0 := h 0 t rfl
      simp only [remapAllGo]
      rw [remapIds_range_id n ndx t.ids h0.1 h0.2, ih (ndx + 1) hrest]
      rfl
    | Thin t =>
      simp only [remapAllGo]
      rw [ih (ndx + 1) hrest]
      rfl
    | Fat f =>
      simp only [remapAllGo]
      rw [ih (ndx + 1) hrest]
      rfl
    | Immediate i =>
      simp only [remapAllGo]
      rw [ih (ndx + 1) hrest]
      rfl
    | Instance i =>
      simp only [remapAllGo]
      rw [ih (ndx + 1) hrest]
      rfl

theorem fit_clone_id (r : Rex)
    (hnf : ∀ k ∈ r.kinds, k.isFat = false)
    (hids : ∀ j t, treeAt r.kinds j = some t →
      t.ids ≠ [] ∧ ∀ i ∈ t.ids, 0 < i ∧ i < r.kinds.length) :
    r.fit_clone = some r := by
  unfold Rex.fit_clone
  rw [fitExpandGo_noFat_id r.kinds [] [] hnf]
  simp only [Option.some_bind, List.nil_append, List.length_nil, Nat.add_zero, List.map_id']
  rw [remapAllGo_range_id r.kinds.length r.kinds 0 hids]
  rfl


theorem assignParents_ok (len pos : Nat) :
    ∀ (ids : List Nat) (parent : List Nat),
      (∀ i ∈ ids, pos < i ∧ i < len) →
      ∃ parent2, assignParents len pos parent ids = some (Except.ok parent2) := by
  intro ids
  induction ids with
  | nil => intro parent _; exact ⟨parent, rfl⟩
  | cons i is ih =>
    intro parent h
    have hi := h i (List.mem_cons_self _ _)
    have his : ∀ i2 ∈ is, pos < i2 ∧ i2 < len :=
      fun i2 h2 => h i2 (List.mem_cons_of_mem _ h2)
    simp only [assignParents, if_pos hi.1, if_pos hi.2]
    exact ih _ his

theorem assignParents_viol (len pos : Nat) :
    ∀ (ids : List Nat) (parent : List Nat),
      (∀ i ∈ ids, i < len) →
      (∃ i ∈ ids, i ≤ pos) →
      assignParents len pos parent ids = some (Except.error CompileError.InvalidAST) := by
  intro ids
  induction ids with
  | nil =>
    intro parent _ hex
    rcases hex with ⟨i, hi, _⟩
    cases hi
  | cons i is ih =>
    intro parent hlt hex
    by_cases h1 : pos < i
    · simp only [assignParents, if_pos h1, if_pos (hlt i (List.mem_cons_self _ _))]
      refine ih _ (fun i2 h2 => hlt i2 (List.mem_cons_of_mem _ h2)) ?_
      rcases hex with ⟨i2, hi2, hle⟩
      rcases List.mem_cons.1 hi2 with he | he
      · rw [he] at hle; omega
      · exact ⟨i2, he, hle⟩
    · simp only [assignParents, if_neg h1]

theorem validateGo_finds_viol (len : Nat) :
    ∀ (ks : List RexKind) (merged : List (Option Content)) (parent : List Nat) (pos : Nat),
      (∀ j t, treeAt ks j = some t → ∀ i ∈ t.ids, i < len) →
      (∃ j t, treeAt ks j = some t ∧ ∃ i ∈ t.ids, i ≤ pos + j) →
      validateGo len merged parent pos ks = some (Except.error CompileError.InvalidAST) := by
  intro ks
  induction ks with
  | nil =>
    intro merged parent pos _ hex
    rcases hex with ⟨j, t, ht, _⟩
    rw [treeAt_nil] at ht
    cases ht
  | cons k rest ih =>
    intro merged parent pos hrange hex
    have hrange2 : ∀ j t, treeAt rest j = some t → ∀ i ∈ t.ids, i < len :=
      fun j t ht => hrange (j + 1) t ((treeAt_cons_succ k rest j).symm ▸ ht)
    cases k with
    | Product t0 =>
      by_cases hv : ∃ i ∈ t0.ids, i ≤ pos
      · simp only [validateGo]
        rw [assignParents_viol len pos t0.ids parent (hrange 0 t0 rfl) hv]
      · have hfwd : ∀ i ∈ t0.ids, pos < i ∧ i < len := by
          intro i hi
          refine ⟨?_, hrange 0 t0 rfl i hi⟩
          by_contra hc
          exact hv ⟨i, hi, by omega⟩
        rcases assignParents_ok len pos t0.ids parent hfwd with ⟨parent2, hok⟩
        simp only [validateGo]
        rw [hok]
        refine ih _ _ _ hrange2 ?_
        rcases hex with ⟨j, t, ht, i, hi, hle⟩
        cases j with
        | zero =>
          have : t = t0 := by
            have : treeAt (RexKind.Product t0 :: rest) 0 = some t0 := rfl
            rw [ht] at this
            cases this
            rfl
          rw [this] at hi
          exact absurd ⟨i, hi, by omega⟩ hv
        | succ j2 =>
          rw [treeAt_cons_succ] at ht
          exact ⟨j2, t, ht, i, hi, by omega⟩
    | Sum t0 =>
      by_cases hv : ∃ i ∈ t0.ids, i ≤ pos
      · simp only [validateGo]
        rw [assignParents_viol len pos t0.ids parent (hrange 0 t0 rfl) hv]
      · have hfwd : ∀ i ∈ t0.ids, pos < i ∧ i < len := by
          intro i hi
          refine ⟨?_, hrange 0 t0 rfl i hi⟩
          by_contra hc
          exact hv ⟨i, hi, by omega⟩
        rcases assignParents_ok len pos t0.ids parent hfwd with ⟨parent2, hok⟩
        simp only [validateGo]
        rw [hok]
        refine ih _ _ _ hrange2 ?_
        rcases hex with ⟨j, t, ht, i, hi, hle⟩
        cases j with
        | zero =>
          have : t = t0 := by
            have : treeAt (RexKind.Sum t0 :: rest) 0 = some t0 := rfl
            rw [ht] at this
            cases this
            rfl
          rw [this] at hi
          exact absurd ⟨i, hi, by omega⟩ hv
        | succ j2 =>
          rw [treeAt_cons_succ] at ht
          exact ⟨j2, t, ht, i, hi, by omega⟩
    | Thin t0 =>
      simp only [validateGo]
      refine ih _ _ _ hrange2 ?_
      rcases hex with ⟨j, t, ht, i, hi, hle⟩
      cases j with
      | zero => cases ht
      | succ j2 =>
        rw [treeAt_cons_succ] at ht
        exact ⟨j2, t, ht, i, hi, by omega⟩
    | Fat f =>
      simp only [validateGo]
      refine ih _ _ _ hrange2 ?_
      rcases hex with ⟨j, t, ht, i, hi, hle⟩
      cases j with
      | zero => cases ht
      | succ j2 =>
        rw [treeAt_cons_succ] at ht
        exact ⟨j2, t, ht, i, hi, by omega⟩
    | Immediate im =>
      simp only [validateGo]
      refine ih _ _ _ hrange2 ?_
      rcases hex with ⟨j, t, ht, i, hi, hle⟩
      cases j with
      | zero => cases ht
      | succ j2 =>
        rw [treeAt_cons_succ] at ht
        exact ⟨j2, t, ht, i, hi, by omega⟩
    | Instance im =>
      simp only [validateGo]
      refine ih _ _ _ hrange2 ?_
      rcases hex with ⟨j, t, ht, i, hi, hle⟩
      cases j with
      | zero => cases ht
      | succ j2 =>
        rw [treeAt_cons_succ] at ht
        exact ⟨j2, t, ht, i, hi, by omega⟩


theorem treeAt_nonempty (ks : List RexKind) (j : Nat) (t : RexTree)
    (h : treeAt ks j = some t) : ks ≠ [] := by
  intro he
  rw [he, treeAt_nil] at h
  cases h

theorem get_invalid_ast (ctx : Ctx) (r : Rex)
    (hnf : ∀ k ∈ r.kinds, k.isFat = false)
    (hids : ∀ pos t, treeAt r.kinds pos = some t →
      t.ids ≠ [] ∧ ∀ i ∈ t.ids, 0 < i ∧ i < r.kinds.length)
    (hback : ∃ pos t, treeAt r.kinds pos = some t ∧ ∃ i ∈ t.ids, i ≤ pos) :
    r.get_compiled_content ctx = some (Except.error CompileError.InvalidAST) := by
  unfold Rex.get_compiled_content
  rw [fit_clone_id r hnf hids]
  simp only [Option.some_bind]
  unfold compilePass
  rcases hback with ⟨pos, t, ht, hi⟩
  have hne := treeAt_nonempty r.kinds pos t ht
  cases hks : r.kinds with
  | nil => exact absurd hks hne
  | cons a b =>
    rw [hks] at ht hids
    simp only []
    have hrange : ∀ j t2, treeAt (a :: b) j = some t2 → ∀ i2 ∈ t2.ids, i2 < (a :: b).length :=
      fun j t2 ht2 i2 hi2 => ((hids j t2 ht2).2 i2 hi2).2
    have hviol : ∃ j t2, treeAt (a :: b) j = some t2 ∧ ∃ i2 ∈ t2.ids, i2 ≤ 0 + j := by
      rcases hi with ⟨i2, hi2, hle⟩
      exact ⟨pos, t, ht, i2, hi2, by omega⟩
    rw [validateGo_finds_viol (a :: b).length (a :: b)
      (List.replicate (a :: b).length none) (List.replicate (a :: b).length 0) 0 hrange hviol]


theorem remapAllGo_success_nodes :
    ∀ (ks : List RexKind) (idMap : List Nat) (ndx : Nat) (out : List RexKind),
      remapAllGo idMap ndx ks = some out →
      ∀ j t, treeAt ks j = some t →
        ∃ ids2, remapIds idMap (ndx + j) t.ids = some ids2 := by
  intro ks
  induction ks with
  | nil =>
    intro idMap ndx out _ j t ht
    rw [treeAt_nil] at ht
    cases ht
  | cons k rest ih =>
    intro idMap ndx out h j t ht
    cases j with
    | zero =>
      cases k with
      | Product t0 =>
        have he : t = t0 := by
          have h0 : treeAt (RexKind.Product t0 :: rest) 0 = some t0 := rfl
          rw [ht] at h0
          cases h0
          rfl
        subst he
        simp only [remapAllGo] at h
        cases hr : remapIds idMap ndx t.ids with
        | none => rw [hr] at h; cases h
        | some ids2 => exact ⟨ids2, by rw [Nat.add_zero]; exact hr⟩
      | Sum t0 =>
        have he : t = t0 := by
          have h0 : treeAt (RexKind.Sum t0 :: rest) 0 = some t0 := rfl
          rw [ht] at h0
          cases h0
          rfl
        subst he
        simp only [remapAllGo] at h
        cases hr : remapIds idMap ndx t.ids with
        | none => rw [hr] at h; cases h
        | some ids2 => exact ⟨ids2, by rw [Nat.add_zero]; exact hr⟩
      | Thin t0 => cases ht
      | Fat f => cases ht
      | Immediate im => cases ht
      | Instance im => cases ht
    | succ j2 =>
      rw [treeAt_cons_succ] at ht
      have hrec : ∃ out2, remapAllGo idMap (ndx + 1) rest = some out2 := by
        cases k with
        | Product t0 =>
          simp only [remapAllGo] at h
          cases hr : remapIds idMap ndx t0.ids with
          | none => rw [hr] at h; cases h
          | some ids2 =>
            rw [hr] at h
            simp only [Option.some_bind] at h
            cases h2 : remapAllGo idMap (ndx + 1) rest with
            | none => rw [h2] at h; cases h
            | some l => exact ⟨l, rfl⟩
        | Sum t0 =>
          simp only [remapAllGo] at h
          cases hr : remapIds idMap ndx t0.ids with
          | none => rw [hr] at h; cases h
          | some ids2 =>
            rw [hr] at h
            simp only [Option.some_bind] at h
            cases h2 : remapAllGo idMap (ndx + 1) rest with
            | none => rw [h2] at h; cases h
            | some l => exact ⟨l, rfl⟩
        | Thin t0 =>
          simp only [remapAllGo] at h
          cases h2 : remapAllGo idMap (ndx + 1) rest with
          | none => rw [h2] at h; cases h
          | some l => exact ⟨l, rfl⟩
        | Fat f =>
          simp only [remapAllGo] at h
          cases h2 : remapAllGo idMap (ndx + 1) rest with
          | none => rw [h2] at h; cases h
          | some l => exact ⟨l, rfl⟩
        | Immediate im =>
          simp only [remapAllGo] at h
          cases h2 : remapAllGo idMap (ndx + 1) rest with
          | none => rw [h2] at h; cases h
          | some l => exact ⟨l, rfl⟩
        | Instance im =>
          simp only [remapAllGo] at h
          cases h2 : remapAllGo idMap (ndx + 1) rest with
          | none => rw [h2] at h; cases h
          | some l => exact ⟨l, rfl⟩
      rcases hrec with ⟨out2, h2⟩
      have := ih idMap (ndx + 1) out2 h2 j2 t ht
      rcases this with ⟨ids2, hr⟩
      refine ⟨ids2, ?_⟩
      have harith : ndx + 1 + j2 = ndx + (j2 + 1) := by omega
      rw [← harith]
      exact hr

theorem mapIdsPos_oob (n : Nat) :
    ∀ ids : List Nat, (∀ i ∈ ids, 0 < i) → (∃ i ∈ ids, n ≤ i) →
      mapIdsPos (List.range n) ids = none := by
  intro ids
  induction ids with
  | nil =>
    intro _ hex
    rcases hex with ⟨i, hi, _⟩
    cases hi
  | cons i is ih =>
    intro hpos hex
    have hi := hpos i (List.mem_cons_self _ _)
    simp only [mapIdsPos, if_pos hi]
    by_cases hlt : i < n
    · rw [List.get?_eq_getElem?, List.getElem?_range hlt]
      have hex2 : ∃ i2 ∈ is, n ≤ i2 := by
        rcases hex with ⟨i2, hi2, hge⟩
        rcases List.mem_cons.1 hi2 with he | he
        · rw [he] at hge; omega
        · exact ⟨i2, he, hge⟩
      rw [ih (fun i2 h2 => hpos i2 (List.mem_cons_of_mem _ h2)) hex2]
      rfl
    · have : (List.range n).get? i = none := by
        rw [List.get?_eq_getElem?]
        refine List.getElem?_eq_none ?_
        rw [List.length_range]
        omega
      rw [this]

theorem remapIds_oob (n ndx : Nat) (ids : List Nat)
    (hne : ids ≠ []) (hpos : ∀ i ∈ ids, 0 < i) (hex : ∃ i ∈ ids, n ≤ i) :
    remapIds (List.range n) ndx ids = none := by
  cases ids with
  | nil => exact absurd rfl hne
  | cons i is =>
    have hi := hpos i (List.mem_cons_self _ _)
    simp only [remapIds, if_pos hi]
    exact mapIdsPos_oob n (i :: is) hpos hex

theorem get_oor_none (ctx : Ctx) (r : Rex)
    (hnf : ∀ k ∈ r.kinds, k.isFat = false)
    (hids : ∀ pos t, treeAt r.kinds pos = some t →
      t.ids ≠ [] ∧ ∀ i ∈ t.ids, 0 < i)
    (hoor : ∃ pos t, treeAt r.kinds pos = some t ∧ ∃ i ∈ t.ids, r.kinds.length ≤ i) :
    r.get_compiled_content ctx = none := by
  unfold Rex.get_compiled_content Rex.fit_clone
  rw [fitExpandGo_noFat_id r.kinds [] [] hnf]
  simp only [Option.some_bind, List.nil_append, List.length_nil, Nat.add_zero, List.map_id']
  cases hr : remapAllGo (List.range r.kinds.length) 0 r.kinds with
  | none => rfl
  | some out =>
    exfalso
    rcases hoor with ⟨pos, t, ht, hex⟩
    rcases remapAllGo_success_nodes r.kinds (List.range r.kinds.length) 0 out hr pos t ht
      with ⟨ids2, hsome⟩
    have hnone := remapIds_oob r.kinds.length (0 + pos) t.ids (hids pos t ht).1
      (fun i hi => ((hids pos t ht).2 i hi)) ⟨_, hex.choose_spec.1, hex.choose_spec.2⟩
    rw [hsome] at hnone
    cases hnone


theorem validateGo_all_ok (len : Nat) :
    ∀ (ks : List RexKind) (merged : List (Option Content)) (parent : List Nat) (pos : Nat),
      (∀ j t, treeAt ks j = some t → ∀ i ∈ t.ids, pos + j < i ∧ i < len) →
      ∃ st, validateGo len merged parent pos ks = some (Except.ok st) := by
  intro ks
  induction ks with
  | nil => intro merged parent pos _; exact ⟨(merged, parent), rfl⟩
  | cons k rest ih =>
    intro merged parent pos h
    have hrest : ∀ j t, treeAt rest j = some t → ∀ i ∈ t.ids, (pos + 1) + j < i ∧ i < len := by
      intro j t ht i hi
      have := h (j + 1) t ((treeAt_cons_succ k rest j).symm ▸ ht) i hi
      omega
    cases k with
    | Product t0 =>
      have h0 : ∀ i ∈ t0.ids, pos < i ∧ i < len := by
        intro i hi
        have := h 0 t0 rfl i hi
        omega
      rcases assignParents_ok len pos t0.ids parent h0 with ⟨parent2, hok⟩
      simp only [validateGo]
      rw [hok]
      exact ih _ _ _ hrest
    | Sum t0 =>
      have h0 : ∀ i ∈ t0.ids, pos < i ∧ i < len := by
        intro i hi
        have := h 0 t0 rfl i hi
        omega
      rcases assignParents_ok len pos t0.ids parent h0 with ⟨parent2, hok⟩
      simp only [validateGo]
      rw [hok]
      exact ih _ _ _ hrest
    | Thin t0 => exact ih _ _ _ hrest
    | Fat f => exact ih _ _ _ hrest
    | Immediate im => exact ih _ _ _ hrest
    | Instance im => exact ih _ _ _ hrest

theorem getLast?_getD (l : List RexKind) (k d : RexKind) (h : l.getLast? = some k) :
    l.getD (l.length - 1) d = k := by
  rw [List.getLast?_eq_getElem?] at h
  simp [List.getD, h]

theorem compileStep_fat (ctx : Ctx) (kinds : List RexKind)
    (merged : List (Option Content)) (pos : Nat) (far : FatArrowRule)
    (h : kinds.getD pos (RexKind.Product ⟨[]⟩) = RexKind.Fat far) :
    compileStepContent ctx kinds merged pos = Except.error CompileError.FatLeak := by
  unfold compileStepContent
  rw [h]

theorem compileDown_step_error (ctx : Ctx) (kinds : List RexKind) (parent : List Nat)
    (p : Nat) (merged : List (Option Content)) (e : CompileError)
    (h : compileStepContent ctx kinds merged p = Except.error e) :
    compileDown ctx kinds parent p merged = Except.error e := by
  cases p with
  | zero =>
    unfold compileDown
    rw [h]
  | succ q =>
    unfold compileDown
    rw [h]

theorem pass_fat_last (ctx : Ctx) (r : Rex) (far : FatArrowRule)
    (hlast : r.kinds.getLast? = some (RexKind.Fat far))
    (hfwd : ∀ pos t, treeAt r.kinds pos = some t →
      ∀ i ∈ t.ids, pos < i ∧ i < r.kinds.length) :
    compilePass ctx r = some (Except.error CompileError.FatLeak) := by
  unfold compilePass
  cases hks : r.kinds with
  | nil => rw [hks] at hlast; cases hlast
  | cons a b =>
    rw [hks] at hlast hfwd
    simp only []
    have hok := validateGo_all_ok (a :: b).length (a :: b)
      (List.replicate (a :: b).length none) (List.replicate (a :: b).length 0) 0
      (fun j t ht i hi => by have := hfwd j t ht i hi; omega)
    rcases hok with ⟨st, hval⟩
    rw [hval]
    obtain ⟨merged, parent⟩ := st
    simp only []
    rw [compileDown_step_error ctx (a :: b) parent ((a :: b).length - 1) merged
      CompileError.FatLeak
      (compileStep_fat ctx (a :: b) merged ((a :: b).length - 1) far
        (getLast?_getD (a :: b) (RexKind.Fat far) (RexKind.Product ⟨[]⟩) hlast))]


/-- C3 counterexample: a single `Product` node with the out-of-range
child index 1 makes `get_compiled_content` panic (an out-of-bounds
`id_map` index inside `fit_clone`, modelled `none`) instead of
returning the typed `InvalidAST` error the claim promises. -/
theorem C3_counterexample :
    rexOOR.kinds = [RexKind.Product ⟨[1]⟩]
  ∧ Rex.get_compiled_content ctx0 rexOOR = none
  ∧ ¬ Rex.get_compiled_content ctx0 rexOOR
      = some (Except.error CompileError.InvalidAST) :=
  ⟨rfl, by decide, by decide⟩

/-- C3 amended: for every Fat-free `Rex` whose `Product`/`Sum` nodes
hold nonempty lists of positive child indices: if all indices are in
range and some index points backward or to its own node,
`get_compiled_content` returns the typed error `InvalidAST`; if
instead some index is out of range, `get_compiled_content` panics
(modelled `none`) rather than returning `InvalidAST`.  A `Fat` node
sitting at the last array position of a `Rex` whose index validation
passes makes the compilation pass itself (`compilePass`, the code
after the `fit_clone` call, which `get_compiled_content` can never
reach with a `Fat` node) return the typed error `FatLeak`. -/
theorem C3_error_reporting_amended :
    (∀ (ctx : Ctx) (r : Rex),
      (∀ k ∈ r.kinds, k.isFat = false) →
      (∀ pos t, treeAt r.kinds pos = some t →
        t.ids ≠ [] ∧ ∀ i ∈ t.ids, 0 < i ∧ i < r.kinds.length) →
      (∃ pos t, treeAt r.kinds pos = some t ∧ ∃ i ∈ t.ids, i ≤ pos) →
      r.get_compiled_content ctx = some (Except.error CompileError.InvalidAST))
  ∧ (∀ (ctx : Ctx) (r : Rex),
      (∀ k ∈ r.kinds, k.isFat = false) →
      (∀ pos t, treeAt r.kinds pos = some t →
        t.ids ≠ [] ∧ ∀ i ∈ t.ids, 0 < i) →
      (∃ pos t, treeAt r.kinds pos = some t ∧ ∃ i ∈ t.ids, r.kinds.length ≤ i) →
      r.get_compiled_content ctx = none)
  ∧ (∀ (ctx : Ctx) (r : Rex) (far : FatArrowRule),
      r.kinds.getLast? = some (RexKind.Fat far) →
      (∀ pos t, treeAt r.kinds pos = some t →
        ∀ i ∈ t.ids, pos < i ∧ i < r.kinds.length) →
      compilePass ctx r = some (Except.error CompileError.FatLeak)) :=
  ⟨get_invalid_ast, get_oor_none, pass_fat_last⟩

/-- C3 amended witness: concrete instances of the three behaviours. -/
theorem C3_error_reporting_amended_witness :
    Rex.get_compiled_content ctx0 rexBack = some (Except.error CompileError.InvalidAST)
  ∧ Rex.get_compiled_content ctx0 rexOOR = none
  ∧ compilePass ctx0 ⟨[RexKind.Fat farAB]⟩ = some (Except.error CompileError.FatLeak) := by
  refine ⟨C3_error_reporting_amended.1 ctx0 rexBack (by decide) ?_ ?_,
    C3_error_reporting_amended.2.1 ctx0 rexOOR (by decide) ?_ ?_,
    C3_error_reporting_amended.2.2 ctx0 ⟨[RexKind.Fat farAB]⟩ farAB rfl ?_⟩
  · intro pos t h
    match pos with
    | 0 =>
      rw [show treeAt rexBack.kinds 0 = some (⟨[1]⟩ : RexTree) from rfl] at h
      cases h
      exact ⟨by decide, by decide⟩
    | 1 => cases h
    | 2 =>
      rw [show treeAt rexBack.kinds 2 = some (⟨[1]⟩ : RexTree) from rfl] at h
      cases h
      exact ⟨by decide, by decide⟩
    | n + 3 => cases h
  · exact ⟨2, ⟨[1]⟩, rfl, 1, by decide, by omega⟩
  · intro pos t h
    match pos with
    | 0 =>
      rw [show treeAt rexOOR.kinds 0 = some (⟨[1]⟩ : RexTree) from rfl] at h
      cases h
      exact ⟨by decide, by decide⟩
    | n + 1 => cases h
  · exact ⟨0, ⟨[1]⟩, rfl, 1, by decide, by decide⟩
  · intro pos t h
    match pos with
    | 0 => cases h
    | n + 1 => cases h

end Ascesis




namespace Ascesis

theorem selUnion_cons (sel : ThinArrowRule → Finset Mono) (t : ThinArrowRule)
    (ts : List ThinArrowRule) :
    (t :: ts).foldr (fun x acc => sel x ∪ acc) ∅
      = sel t ∪ ts.foldr (fun x acc => sel x ∪ acc) ∅ := rfl

theorem selUnion_append (sel : ThinArrowRule → Finset Mono) :
    ∀ l1 l2 : List ThinArrowRule,
      (l1 ++ l2).foldr (fun x acc => sel x ∪ acc) ∅
        = l1.foldr (fun x acc => sel x ∪ acc) ∅ ∪ l2.foldr (fun x acc => sel x ∪ acc) ∅ := by
  intro l1
  induction l1 with
  | nil => intro l2; simp
  | cons t ts ih =>
    intro l2
    simp only [List.cons_append, selUnion_cons, ih, Finset.union_assoc]

theorem mergeInsert_selUnion (sel : ThinArrowRule → Finset Mono)
    (e : ThinArrowRule → ThinArrowRule → Bool)
    (m : ThinArrowRule → ThinArrowRule → ThinArrowRule)
    (hm : ∀ a t, e a t = true → sel (m a t) = sel a ∪ sel t) :
    ∀ (acc : List ThinArrowRule) (t : ThinArrowRule),
      (mergeInsert e m acc t).1.foldr (fun x acc2 => sel x ∪ acc2) ∅
        = acc.foldr (fun x acc2 => sel x ∪ acc2) ∅ ∪ sel t := by
  intro acc
  induction acc with
  | nil =>
    intro t
    simp [mergeInsert]
  | cons a acc ih =>
    intro t
    unfold mergeInsert
    cases h : e a t with
    | true =>
      simp only [if_true, selUnion_cons, hm a t h]
      rw [Finset.union_assoc, Finset.union_comm (sel t), ← Finset.union_assoc]
    | false =>
      simp only [Bool.false_eq_true, if_false, selUnion_cons, ih t, ← Finset.union_assoc]

theorem mergePassGo_selUnion (sel : ThinArrowRule → Finset Mono)
    (e : ThinArrowRule → ThinArrowRule → Bool)
    (m : ThinArrowRule → ThinArrowRule → ThinArrowRule)
    (hm : ∀ a t, e a t = true → sel (m a t) = sel a ∪ sel t) :
    ∀ (ts acc : List ThinArrowRule) (flag : Bool),
      (mergePassGo e m acc flag ts).1.foldr (fun x acc2 => sel x ∪ acc2) ∅
        = acc.foldr (fun x acc2 => sel x ∪ acc2) ∅
          ∪ ts.foldr (fun x acc2 => sel x ∪ acc2) ∅ := by
  intro ts
  induction ts with
  | nil =>
    intro acc flag
    simp [mergePassGo]
  | cons t ts ih =>
    intro acc flag
    show (mergePassGo e m (mergeInsert e m acc t).1 _ ts).1.foldr _ ∅ = _
    rw [ih, mergeInsert_selUnion sel e m hm, selUnion_cons, Finset.union_assoc]

theorem mergeInsert_preserve (P : ThinArrowRule → Prop)
    (e : ThinArrowRule → ThinArrowRule → Bool)
    (m : ThinArrowRule → ThinArrowRule → ThinArrowRule)
    (hm : ∀ a t, P a → P (m a t)) :
    ∀ (acc : List ThinArrowRule) (t : ThinArrowRule),
      (∀ x ∈ acc, P x) → P t → ∀ x ∈ (mergeInsert e m acc t).1, P x := by
  intro acc
  induction acc with
  | nil =>
    intro t _ ht x hx
    rcases List.mem_singleton.1 hx with h
    rw [h]; exact ht
  | cons a acc ih =>
    intro t hacc ht x hx
    unfold mergeInsert at hx
    cases h : e a t with
    | true =>
      rw [h] at hx
      simp only [if_true] at hx
      rcases List.mem_cons.1 hx with h2 | h2
      · rw [h2]; exact hm a t (hacc a (List.mem_cons_self _ _))
      · exact hacc x (List.mem_cons_of_mem _ h2)
    | false =>
      rw [h] at hx
      simp only [Bool.false_eq_true, if_false] at hx
      rcases List.mem_cons.1 hx with h2 | h2
      · rw [h2]; exact hacc a (List.mem_cons_self _ _)
      · exact ih t (fun y hy => hacc y (List.mem_cons_of_mem _ hy)) ht x h2

theorem mergePassGo_preserve (P : ThinArrowRule → Prop)
    (e : ThinArrowRule → ThinArrowRule → Bool)
    (m : ThinArrowRule → ThinArrowRule → ThinArrowRule)
    (hm : ∀ a t, P a → P (m a t)) :
    ∀ (ts acc : List ThinArrowRule) (flag : Bool),
      (∀ x ∈ acc, P x) → (∀ x ∈ ts, P x) →
      ∀ x ∈ (mergePassGo e m acc flag ts).1, P x := by
  intro ts
  induction ts with
  | nil => intro acc flag hacc _; exact hacc
  | cons t ts ih =>
    intro acc flag hacc hts
    show ∀ x ∈ (mergePassGo e m (mergeInsert e m acc t).1 _ ts).1, P x
    exact ih _ _
      (mergeInsert_preserve P e m hm acc t hacc (hts t (List.mem_cons_self _ _)))
      (fun y hy => hts y (List.mem_cons_of_mem _ hy))


theorem mergeEffect_union (a t : ThinArrowRule) (_ : eqDots a t = true) :
    (mergeEffect a t).effect.monomials = a.effect.monomials ∪ t.effect.monomials := rfl

theorem mergeDots_effect_union (a t : ThinArrowRule) (h : eqEffect a t = true) :
    (mergeDots a t).effect.monomials = a.effect.monomials ∪ t.effect.monomials := by
  have he : a.effect = t.effect := of_decide_eq_true h
  show a.effect.monomials = a.effect.monomials ∪ t.effect.monomials
  rw [← he, Finset.union_self]

theorem mergeCause_union (a t : ThinArrowRule) (_ : eqDots a t = true) :
    (mergeCause a t).cause.monomials = a.cause.monomials ∪ t.cause.monomials := rfl

theorem mergeDots_cause_union (a t : ThinArrowRule) (h : eqCause a t = true) :
    (mergeDots a t).cause.monomials = a.cause.monomials ∪ t.cause.monomials := by
  have he : a.cause = t.cause := of_decide_eq_true h
  show a.cause.monomials = a.cause.monomials ∪ t.cause.monomials
  rw [← he, Finset.union_self]

theorem fitPass_spec (tx rx : List ThinArrowRule) :
    effectUnion (fitPass tx rx).1 = effectUnion tx
  ∧ causeUnion (fitPass tx rx).2.1 = causeUnion rx
  ∧ ((∀ t ∈ tx, t.cause = Polynomial.default) →
      ∀ t ∈ (fitPass tx rx).1, t.cause = Polynomial.default)
  ∧ ((∀ t ∈ rx, t.effect = Polynomial.default) →
      ∀ t ∈ (fitPass tx rx).2.1, t.effect = Polynomial.default) := by
  refine ⟨?_, ?_, ?_, ?_⟩
  · have h1 := mergePassGo_selUnion (fun x => x.effect.monomials) eqDots mergeEffect
      mergeEffect_union tx [] false
    have h2 := mergePassGo_selUnion (fun x => x.effect.monomials) eqEffect mergeDots
      mergeDots_effect_union (mergePassGo eqDots mergeEffect [] false tx).1 [] false
    show List.foldr (fun x acc2 => x.effect.monomials ∪ acc2) ∅
        (mergePassGo eqEffect mergeDots [] false
          (mergePassGo eqDots mergeEffect [] false tx).1).1
      = List.foldr (fun x acc2 => x.effect.monomials ∪ acc2) ∅ tx
    rw [h2, h1]
    simp
  · have h1 := mergePassGo_selUnion (fun x => x.cause.monomials) eqDots mergeCause
      mergeCause_union rx [] false
    have h2 := mergePassGo_selUnion (fun x => x.cause.monomials) eqCause mergeDots
      mergeDots_cause_union (mergePassGo eqDots mergeCause [] false rx).1 [] false
    show List.foldr (fun x acc2 => x.cause.monomials ∪ acc2) ∅
        (mergePassGo eqCause mergeDots [] false
          (mergePassGo eqDots mergeCause [] false rx).1).1
      = List.foldr (fun x acc2 => x.cause.monomials ∪ acc2) ∅ rx
    rw [h2, h1]
    simp
  · intro hd
    show ∀ t ∈ (mergePassGo eqEffect mergeDots [] false
      (mergePassGo eqDots mergeEffect [] false tx).1).1, t.cause = Polynomial.default
    refine mergePassGo_preserve _ eqEffect mergeDots (fun a t ha => ha) _ [] false
      (fun x hx => absurd hx (List.not_mem_nil x)) ?_
    exact mergePassGo_preserve _ eqDots mergeEffect (fun a t ha => ha) tx [] false
      (fun x hx => absurd hx (List.not_mem_nil x)) hd
  · intro hd
    show ∀ t ∈ (mergePassGo eqCause mergeDots [] false
      (mergePassGo eqDots mergeCause [] false rx).1).1, t.effect = Polynomial.default
    refine mergePassGo_preserve _ eqCause mergeDots (fun a t ha => ha) _ [] false
      (fun x hx => absurd hx (List.not_mem_nil x)) ?_
    exact mergePassGo_preserve _ eqDots mergeCause (fun a t ha => ha) rx [] false
      (fun x hx => absurd hx (List.not_mem_nil x)) hd


theorem mergeInsert_no_merge (e : ThinArrowRule → ThinArrowRule → Bool)
    (m : ThinArrowRule → ThinArrowRule → ThinArrowRule) :
    ∀ (acc : List ThinArrowRule) (t : ThinArrowRule),
      (mergeInsert e m acc t).2 = false →
      (mergeInsert e m acc t).1 = acc ++ [t] ∧ ∀ a ∈ acc, e a t = false := by
  intro acc
  induction acc with
  | nil =>
    intro t _
    exact ⟨rfl, fun a ha => absurd ha (List.not_mem_nil a)⟩
  | cons a acc ih =>
    intro t hf
    unfold mergeInsert at hf ⊢
    cases h : e a t with
    | true => rw [h] at hf; simp at hf
    | false =>
      rw [h] at hf
      simp only [Bool.false_eq_true, if_false] at hf ⊢
      rcases ih t hf with ⟨h1, h2⟩
      refine ⟨by rw [h1]; rfl, ?_⟩
      intro a2 ha2
      rcases List.mem_cons.1 ha2 with he | he
      · rw [he]; exact h
      · exact h2 a2 he

theorem mergePassGo_flag_mono (e : ThinArrowRule → ThinArrowRule → Bool)
    (m : ThinArrowRule → ThinArrowRule → ThinArrowRule) :
    ∀ (ts acc : List ThinArrowRule), (mergePassGo e m acc true ts).2 = true := by
  intro ts
  induction ts with
  | nil => intro acc; rfl
  | cons t ts ih =>
    intro acc
    show (mergePassGo e m (mergeInsert e m acc t).1 (true || (mergeInsert e m acc t).2) ts).2 = true
    rw [Bool.true_or]
    exact ih _

theorem mergePassGo_no_merge (e : ThinArrowRule → ThinArrowRule → Bool)
    (m : ThinArrowRule → ThinArrowRule → ThinArrowRule) :
    ∀ (ts acc : List ThinArrowRule),
      (mergePassGo e m acc false ts).2 = false →
      (mergePassGo e m acc false ts).1 = acc ++ ts
      ∧ (List.Pairwise (fun a b => e a b = false) acc →
          List.Pairwise (fun a b => e a b = false) (mergePassGo e m acc false ts).1) := by
  intro ts
  induction ts with
  | nil =>
    intro acc _
    exact ⟨by simp [mergePassGo], fun h => h⟩
  | cons t ts ih =>
    intro acc hf
    have hstep : (mergePassGo e m acc false (t :: ts)).2
        = (mergePassGo e m (mergeInsert e m acc t).1 (false || (mergeInsert e m acc t).2) ts).2 :=
      rfl
    cases hmi : (mergeInsert e m acc t).2 with
    | true =>
      exfalso
      rw [hstep, hmi, Bool.false_or] at hf
      rw [mergePassGo_flag_mono e m ts _] at hf
      cases hf
    | false =>
      rcases mergeInsert_no_merge e m acc t hmi with ⟨heq, hall⟩
      have hf2 : (mergePassGo e m (mergeInsert e m acc t).1 false ts).2 = false := by
        rw [hstep, hmi, Bool.false_or] at hf
        exact hf
      rcases ih (mergeInsert e m acc t).1 hf2 with ⟨ih1, ih2⟩
      have hres : (mergePassGo e m acc false (t :: ts)).1
          = (mergePassGo e m (mergeInsert e m acc t).1 false ts).1 := by
        show (mergePassGo e m (mergeInsert e m acc t).1 (false || (mergeInsert e m acc t).2) ts).1 = _
        rw [hmi, Bool.or_false]
      constructor
      · rw [hres, ih1, heq, List.append_assoc]
        rfl
      · intro hpw
        rw [hres]
        refine ih2 ?_
        rw [heq]
        rw [List.pairwise_append]
        refine ⟨hpw, List.pairwise_singleton _ _, ?_⟩
        intro a ha b hb
        rw [List.mem_singleton.1 hb]
        exact hall a ha

theorem fitPass_fixpoint_pairwise (tx rx : List ThinArrowRule)
    (h : (fitPass tx rx).2.2 = false) :
    List.Pairwise (fun a b => eqDots a b = false) (fitPass tx rx).2.1 := by
  have hflags : (mergePassGo eqDots mergeCause [] false rx).2 = false
      ∧ (mergePassGo eqCause mergeDots [] false
          (mergePassGo eqDots mergeCause [] false rx).1).2 = false := by
    have h2 : (fitPass tx rx).2.2
        = ((mergePassGo eqDots mergeEffect [] false tx).2
          || (mergePassGo eqDots mergeCause [] false rx).2
          || (mergePassGo eqEffect mergeDots [] false
              (mergePassGo eqDots mergeEffect [] false tx).1).2
          || (mergePassGo eqCause mergeDots [] false
              (mergePassGo eqDots mergeCause [] false rx).1).2) := rfl
    rw [h2] at h
    simp only [Bool.or_eq_false_iff] at h
    exact ⟨h.1.1.2, h.2⟩
  rcases mergePassGo_no_merge eqDots mergeCause rx [] hflags.1 with ⟨_, hpw2⟩
  rcases mergePassGo_no_merge eqCause mergeDots
    (mergePassGo eqDots mergeCause [] false rx).1 [] hflags.2 with ⟨heq3, _⟩
  show List.Pairwise _ (mergePassGo eqCause mergeDots [] false
    (mergePassGo eqDots mergeCause [] false rx).1).1
  rw [heq3, List.nil_append]
  exact hpw2 (List.Pairwise.nil)

theorem fitLoop_spec :
    ∀ (n : Nat) (tx rx tx2 rx2 : List ThinArrowRule),
      fitLoop n tx rx = some (tx2, rx2) →
      effectUnion tx2 = effectUnion tx
      ∧ causeUnion rx2 = causeUnion rx
      ∧ ((∀ t ∈ tx, t.cause = Polynomial.default) → ∀ t ∈ tx2, t.cause = Polynomial.default)
      ∧ ((∀ t ∈ rx, t.effect = Polynomial.default) → ∀ t ∈ rx2, t.effect = Polynomial.default)
      ∧ List.Pairwise (fun a b => eqDots a b = false) rx2 := by
  intro n
  induction n with
  | zero => intro tx rx tx2 rx2 h; cases h
  | succ k ih =>
    intro tx rx tx2 rx2 h
    have hspec := fitPass_spec tx rx
    simp only [fitLoop] at h
    cases hp : (fitPass tx rx).2.2 with
    | true =>
      rw [hp] at h
      simp only [eq_self_iff_true, if_true] at h
      rcases ih (fitPass tx rx).1 (fitPass tx rx).2.1 tx2 rx2 h with
        ⟨he, hc, hdc, hde, hpw⟩
      exact ⟨by rw [he, hspec.1], by rw [hc, hspec.2.1],
        fun hd => hdc (hspec.2.2.1 hd), fun hd => hde (hspec.2.2.2 hd), hpw⟩
    | false =>
      rw [hp] at h
      simp only [Bool.false_eq_true, if_false, Option.some.injEq, Prod.mk.injEq] at h
      obtain ⟨h1, h2⟩ := h
      subst h1
      subst h2
      exact ⟨hspec.1, hspec.2.1, hspec.2.2.1, hspec.2.2.2,
        fitPass_fixpoint_pairwise tx rx hp⟩


theorem fitStep1_spec :
    ∀ (ps : List FatArrow) (tx rx : List ThinArrowRule),
      fitStep1 ps = some (tx, rx) →
      effectUnion tx = partsEffectUnion ps
      ∧ causeUnion rx = partsCauseUnion ps
      ∧ (∀ t ∈ tx, t.cause = Polynomial.default)
      ∧ (∀ t ∈ rx, t.effect = Polynomial.default) := by
  intro ps
  induction ps with
  | nil =>
    intro tx rx h
    simp only [fitStep1, Option.some.injEq, Prod.mk.injEq] at h
    obtain ⟨h1, h2⟩ := h
    subst h1
    subst h2
    exact ⟨rfl, rfl, fun t ht => absurd ht (List.not_mem_nil t),
      fun t ht => absurd ht (List.not_mem_nil t)⟩
  | cons part rest ih =>
    intro tx rx h
    simp only [fitStep1, Option.bind_eq_bind, Option.bind_eq_some] at h
    rcases h with ⟨sources, hsrc, sinks, hsink, txh, htxh, rxh, hrxh, pr, hpr, hres⟩
    obtain ⟨txs, rxs⟩ := pr
    simp only [Option.some.injEq, Prod.mk.injEq] at hres
    obtain ⟨h1, h2⟩ := hres
    subst h1
    subst h2
    rcases ih txs rxs hpr with ⟨ihe, ihc, ihtd, ihrd⟩
    have htxh2 : txh.cause = Polynomial.default ∧ txh.effect = Polynomial.default := by
      unfold ThinArrowRule.with_dots at htxh
      cases hq : DotList.tryFromPolynomial sources with
      | none => rw [hq] at htxh; cases htxh
      | some d =>
        rw [hq] at htxh
        simp only [Option.map_some', Option.some.injEq] at htxh
        rw [← htxh]
        exact ⟨rfl, rfl⟩
    have hrxh2 : rxh.cause = Polynomial.default ∧ rxh.effect = Polynomial.default := by
      unfold ThinArrowRule.with_dots at hrxh
      cases hq : DotList.tryFromPolynomial sinks with
      | none => rw [hq] at hrxh; cases hrxh
      | some d =>
        rw [hq] at hrxh
        simp only [Option.map_some', Option.some.injEq] at hrxh
        rw [← hrxh]
        exact ⟨rfl, rfl⟩
    refine ⟨?_, ?_, ?_, ?_⟩
    · show (txh.with_effect part.effect).effect.monomials ∪ effectUnion txs = _
      show _ = part.effect.monomials ∪ partsEffectUnion rest
      rw [ihe]
      rfl
    · show (rxh.with_cause part.cause).cause.monomials ∪ causeUnion rxs = _
      show _ = part.cause.monomials ∪ partsCauseUnion rest
      rw [ihc]
      rfl
    · intro t ht
      rcases List.mem_cons.1 ht with he | he
      · rw [he]
        show txh.cause = Polynomial.default
        exact htxh2.1
      · exact ihtd t he
    · intro t ht
      rcases List.mem_cons.1 ht with he | he
      · rw [he]
        show rxh.effect = Polynomial.default
        exact hrxh2.2
      · exact ihrd t he


theorem allDefault_causeUnion :
    ∀ ts : List ThinArrowRule, (∀ t ∈ ts, t.cause = Polynomial.default) →
      causeUnion ts = ∅ := by
  intro ts
  induction ts with
  | nil => intro _; rfl
  | cons t ts ih =>
    intro h
    show t.cause.monomials ∪ causeUnion ts = ∅
    rw [h t (List.mem_cons_self _ _), ih (fun y hy => h y (List.mem_cons_of_mem _ hy))]
    rfl

theorem step4insert_mem :
    ∀ (tx : List ThinArrowRule) (r x : ThinArrowRule), x ∈ step4insert tx r →
      x ∈ tx ∨ (∃ t ∈ tx, t.dots = r.dots ∧ x = { t with cause := r.cause }) ∨ x = r := by
  intro tx
  induction tx with
  | nil =>
    intro r x hx
    right; right
    exact List.mem_singleton.1 hx
  | cons t ts ih =>
    intro r x hx
    unfold step4insert at hx
    by_cases hd : t.dots = r.dots
    · rw [if_pos hd] at hx
      rcases List.mem_cons.1 hx with he | he
      · exact Or.inr (Or.inl ⟨t, List.mem_cons_self _ _, hd, he⟩)
      · exact Or.inl (List.mem_cons_of_mem _ he)
    · rw [if_neg hd] at hx
      rcases List.mem_cons.1 hx with he | he
      · exact Or.inl (he ▸ List.mem_cons_self _ _)
      · rcases ih r x he with h1 | h1 | h1
        · exact Or.inl (List.mem_cons_of_mem _ h1)
        · rcases h1 with ⟨t2, ht2, hd2, he2⟩
          exact Or.inr (Or.inl ⟨t2, List.mem_cons_of_mem _ ht2, hd2, he2⟩)
        · exact Or.inr (Or.inr h1)

theorem step4insert_causeUnion :
    ∀ (tx : List ThinArrowRule) (r : ThinArrowRule),
      (∀ t ∈ tx, t.dots = r.dots → t.cause = Polynomial.default) →
      causeUnion (step4insert tx r) = causeUnion tx ∪ r.cause.monomials := by
  intro tx
  induction tx with
  | nil =>
    intro r _
    show r.cause.monomials ∪ ∅ = ∅ ∪ r.cause.monomials
    rw [Finset.union_empty, Finset.empty_union]
  | cons t ts ih =>
    intro r h
    unfold step4insert
    by_cases hd : t.dots = r.dots
    · rw [if_pos hd]
      show r.cause.monomials ∪ causeUnion ts = (t.cause.monomials ∪ causeUnion ts) ∪ _
      rw [h t (List.mem_cons_self _ _) hd]
      show r.cause.monomials ∪ causeUnion ts = (∅ ∪ causeUnion ts) ∪ r.cause.monomials
      rw [Finset.empty_union, Finset.union_comm]
    · rw [if_neg hd]
      show t.cause.monomials ∪ causeUnion (step4insert ts r) = _
      rw [ih r (fun y hy hdy => h y (List.mem_cons_of_mem _ hy) hdy)]
      show _ = (t.cause.monomials ∪ causeUnion ts) ∪ r.cause.monomials
      rw [Finset.union_assoc]

theorem step4insert_effectUnion :
    ∀ (tx : List ThinArrowRule) (r : ThinArrowRule),
      r.effect = Polynomial.default →
      effectUnion (step4insert tx r) = effectUnion tx := by
  intro tx
  induction tx with
  | nil =>
    intro r h
    show r.effect.monomials ∪ ∅ = ∅
    rw [h, Finset.union_empty]
    rfl
  | cons t ts ih =>
    intro r h
    unfold step4insert
    by_cases hd : t.dots = r.dots
    · rw [if_pos hd]
      rfl
    · rw [if_neg hd]
      show t.effect.monomials ∪ effectUnion (step4insert ts r) = _
      rw [ih r h]
      rfl

theorem step4_fold :
    ∀ (rs tx : List ThinArrowRule),
      (∀ t ∈ tx, t.cause = Polynomial.default ∨ ∀ r2 ∈ rs, r2.dots ≠ t.dots) →
      List.Pairwise (fun a b => eqDots a b = false) rs →
      (∀ r ∈ rs, r.effect = Polynomial.default) →
      causeUnion (rs.foldl step4insert tx) = causeUnion tx ∪ causeUnion rs
      ∧ effectUnion (rs.foldl step4insert tx) = effectUnion tx := by
  intro rs
  induction rs with
  | nil =>
    intro tx _ _ _
    constructor
    · show causeUnion tx = causeUnion tx ∪ ∅
      rw [Finset.union_empty]
    · rfl
  | cons r rs ih =>
    intro tx hI hpw hre
    have hpw2 := List.pairwise_cons.1 hpw
    have hmatch : ∀ t ∈ tx, t.dots = r.dots → t.cause = Polynomial.default := by
      intro t ht hd
      rcases hI t ht with h1 | h1
      · exact h1
      · exact absurd (hd.symm) (h1 r (List.mem_cons_self _ _))
    have hI2 : ∀ t ∈ step4insert tx r,
        t.cause = Polynomial.default ∨ ∀ r2 ∈ rs, r2.dots ≠ t.dots := by
      intro x hx
      rcases step4insert_mem tx r x hx with h1 | h1 | h1
      · rcases hI x h1 with h2 | h2
        · exact Or.inl h2
        · exact Or.inr (fun r2 h3 => h2 r2 (List.mem_cons_of_mem _ h3))
      · rcases h1 with ⟨t2, _, hd2, he2⟩
        refine Or.inr ?_
        intro r2 h3
        have : x.dots = r.dots := by rw [he2, hd2]
        rw [this]
        intro hc
        have := hpw2.1 r2 h3
        rw [eqDots] at this
        exact absurd hc.symm (of_decide_eq_false this)
      · refine Or.inr ?_
        intro r2 h3
        rw [h1]
        intro hc
        have := hpw2.1 r2 h3
        rw [eqDots] at this
        exact absurd hc.symm (of_decide_eq_false this)
    rcases ih (step4insert tx r) hI2 hpw2.2
      (fun r2 h2 => hre r2 (List.mem_cons_of_mem _ h2)) with ⟨ihc, ihe⟩
    constructor
    · show causeUnion ((r :: rs).foldl step4insert tx) = _
      rw [List.foldl_cons, ihc, step4insert_causeUnion tx r hmatch]
      show _ = causeUnion tx ∪ (r.cause.monomials ∪ causeUnion rs)
      rw [Finset.union_assoc]
    · show effectUnion ((r :: rs).foldl step4insert tx) = _
      rw [List.foldl_cons, ihe, step4insert_effectUnion tx r (hre r (List.mem_cons_self _ _))]


/-- C2: the FIT transformation preserves total cause/effect coverage:
whenever `fit` returns, the union of the cause-polynomial monomial
sets over the output rules equals the union over the input parts, and
symmetrically for effects — nothing dropped, duplicates collapsed by
set union. -/
theorem C2_fit_preserves_coverage :
    ∀ (far : FatArrowRule) (out : List ThinArrowRule), fit far = some out →
      causeUnion out = partsCauseUnion far.parts
      ∧ effectUnion out = partsEffectUnion far.parts := by
  intro far out h
  simp only [fit, Option.bind_eq_bind, Option.bind_eq_some] at h
  rcases h with ⟨pr1, h1, pr2, h2, hout⟩
  obtain ⟨tx, rx⟩ := pr1
  obtain ⟨tx2, rx2⟩ := pr2
  simp only [Option.some.injEq] at hout
  subst hout
  rcases fitStep1_spec far.parts tx rx h1 with ⟨he1, hc1, htd, hrd⟩
  rcases fitLoop_spec (tx.length + rx.length + 1) tx rx tx2 rx2 h2 with
    ⟨he2, hc2, htd2, hrd2, hpw⟩
  have htd2b := htd2 htd
  have hrd2b := hrd2 hrd
  rcases step4_fold rx2 tx2 (fun t ht => Or.inl (htd2b t ht)) hpw hrd2b with ⟨hcu, heu⟩
  constructor
  · rw [hcu, hc2, hc1, allDefault_causeUnion tx2 htd2b, Finset.empty_union]
  · rw [heu, he2, he1]

/-- C2 witness: coverage preservation evaluated on the fork
`a <= b => c`. -/
theorem C2_fit_preserves_coverage_witness :
    causeUnion [tarBout, tarACin] = partsCauseUnion farABC.parts
  ∧ effectUnion [tarBout, tarACin] = partsEffectUnion farABC.parts :=
  C2_fit_preserves_coverage farABC [tarBout, tarACin] (by decide)

end Ascesis






namespace Ascesis

theorem treeAt_lt_length (ks : List RexKind) (pos : Nat) (t : RexTree)
    (h : treeAt ks pos = some t) : pos < ks.length := by
  unfold treeAt at h
  cases hg : ks.get? pos with
  | none => rw [hg] at h; cases h
  | some k =>
    by_contra hc
    push_neg at hc
    rw [List.get?_eq_none.2 hc] at hg
    cases hg

theorem treeAt_append_left (l1 l2 : List RexKind) (pos : Nat) (h : pos < l1.length) :
    treeAt (l1 ++ l2) pos = treeAt l1 pos := by
  unfold treeAt
  rw [List.get?_append h]

theorem treeAt_append_right (l1 l2 : List RexKind) (j : Nat) :
    treeAt (l1 ++ l2) (l1.length + j) = treeAt l2 j := by
  unfold treeAt
  rw [List.get?_append_right (by omega)]
  have h : l1.length + j - l1.length = j := by omega
  rw [h]

theorem treeAt_set_ne (l : List RexKind) (n pos : Nat) (k : RexKind) (h : n ≠ pos) :
    treeAt (l.set n k) pos = treeAt l pos := by
  unfold treeAt
  rw [List.get?_set_ne k l h]

theorem treeAt_set_eq (l : List RexKind) (n : Nat) (k : RexKind) (h : n < l.length) :
    (l.set n k).get? n = some k :=
  List.get?_set_eq_of_lt k h

theorem treeAt_shift (l : List RexKind) (off j : Nat) :
    treeAt (l.map (shiftKind off)) j
      = (treeAt l j).map (fun t => (⟨t.ids.map (fun i => i + off)⟩ : RexTree)) := by
  unfold treeAt
  rw [List.get?_map]
  cases hg : l.get? j with
  | none => rfl
  | some k => cases k <;> rfl

theorem fwd_append_shift (l1 l2 : List RexKind)
    (h1 : fwdKinds l1) (h2 : fwdKinds l2) :
    fwdKinds (l1 ++ l2.map (shiftKind l1.length)) := by
  intro pos t ht i hi
  by_cases hp : pos < l1.length
  · rw [treeAt_append_left _ _ _ hp] at ht
    exact h1 pos t ht i hi
  · push_neg at hp
    have hj : pos = l1.length + (pos - l1.length) := by omega
    rw [hj, treeAt_append_right, treeAt_shift] at ht
    cases hg : treeAt l2 (pos - l1.length) with
    | none => rw [hg] at ht; cases ht
    | some t0 =>
      rw [hg] at ht
      simp only [Option.map_some', Option.some.injEq] at ht
      rw [← ht] at hi
      simp only [List.mem_map] at hi
      rcases hi with ⟨i0, hi0, he⟩
      have := h2 (pos - l1.length) t0 hg i0 hi0
      omega

theorem fwdKinds_singleton_product : fwdKinds [RexKind.Product ⟨[]⟩] := by
  intro pos t ht i hi
  match pos with
  | 0 =>
    rw [show treeAt [RexKind.Product ⟨[]⟩] 0 = some ⟨[]⟩ from rfl] at ht
    cases ht
    cases hi
  | n + 1 => cases ht

theorem fwdKinds_nil : fwdKinds [] := by
  intro pos t ht
  rw [treeAt_nil] at ht
  cases ht


theorem plussless_spec :
    ∀ (rexlist : List (Option BinOp × Rex)) (kinds : List RexKind)
      (ids : List Nat) (offset : Nat),
      offset = kinds.length →
      fwdKinds kinds →
      (∀ p ∈ rexlist, fwdKinds p.2.kinds) →
      fwdKinds (plusslessGo kinds ids offset rexlist).1
      ∧ (∀ i ∈ (plusslessGo kinds ids offset rexlist).2, 0 < offset → (0 < i ∨ i ∈ ids))
      ∧ kinds.length ≤ (plusslessGo kinds ids offset rexlist).1.length := by
  intro rexlist
  induction rexlist with
  | nil =>
    intro kinds ids offset _ hf _
    exact ⟨hf, fun i hi _ => Or.inr hi, Nat.le_refl _⟩
  | cons p rest ih =>
    intro kinds ids offset hoff hf hlist
    obtain ⟨op, rex⟩ := p
    show fwdKinds (plusslessGo (kinds ++ rex.kinds.map (shiftKind offset)) (ids ++ [offset])
        (offset + rex.kinds.length) rest).1 ∧ _
    have hf2 : fwdKinds (kinds ++ rex.kinds.map (shiftKind offset)) := by
      rw [hoff]
      exact fwd_append_shift kinds rex.kinds hf (hlist (op, rex) (List.mem_cons_self _ _))
    have hoff2 : offset + rex.kinds.length
        = (kinds ++ rex.kinds.map (shiftKind offset)).length := by
      simp [List.length_append, hoff]
    have hrest : ∀ q ∈ rest, fwdKinds q.2.kinds :=
      fun q hq => hlist q (List.mem_cons_of_mem _ hq)
    rcases ih (kinds ++ rex.kinds.map (shiftKind offset)) (ids ++ [offset])
      (offset + rex.kinds.length) hoff2 hf2 hrest with ⟨c1, c2, c3⟩
    refine ⟨c1, ?_, ?_⟩
    · intro i hi hpos
      rcases c2 i hi (by omega) with h1 | h1
      · exact Or.inl h1
      · rcases List.mem_append.1 h1 with h2 | h2
        · exact Or.inr h2
        · rw [List.mem_singleton.1 h2]
          exact Or.inl hpos
    · calc kinds.length ≤ (kinds ++ rex.kinds.map (shiftKind offset)).length := by
            simp [List.length_append]
        _ ≤ _ := c3

theorem treeAt_cons_zero_product (t : RexTree) (ks : List RexKind) :
    treeAt (RexKind.Product t :: ks) 0 = some t := rfl

theorem treeAt_cons_zero_sum (t : RexTree) (ks : List RexKind) :
    treeAt (RexKind.Sum t :: ks) 0 = some t := rfl

theorem treeAt_set_zero_product (l : List RexKind) (ids : List Nat) (h : 0 < l.length) :
    treeAt (l.set 0 (RexKind.Product ⟨ids⟩)) 0 = some ⟨ids⟩ := by
  unfold treeAt
  rw [treeAt_set_eq l 0 _ h]

theorem treeAt_set_zero_sum (l : List RexKind) (ids : List Nat) (h : 0 < l.length) :
    treeAt (l.set 0 (RexKind.Sum ⟨ids⟩)) 0 = some ⟨ids⟩ := by
  unfold treeAt
  rw [treeAt_set_eq l 0 _ h]


theorem fwd_snoc_empty_product (l : List RexKind) (h : fwdKinds l) :
    fwdKinds (l ++ [RexKind.Product ⟨[]⟩]) := by
  have h2 : fwdKinds ([RexKind.Product ⟨[]⟩].map (shiftKind l.length)) →
      fwdKinds (l ++ [RexKind.Product ⟨[]⟩].map (shiftKind l.length)) :=
    fun hf => fwd_append_shift l [RexKind.Product ⟨[]⟩] h fwdKinds_singleton_product
  exact h2 (by
    intro pos t ht i hi
    match pos with
    | 0 =>
      rw [show treeAt ([RexKind.Product ⟨[]⟩].map (shiftKind l.length)) 0
        = some ⟨[]⟩ from rfl] at ht
      cases ht
      cases hi
    | n + 1 => cases ht)

theorem wmAppend_inv (st : WMState) (rex : Rex)
    (hinv : WMInv st) (hne : rex.kinds ≠ []) (hfwd : fwdKinds rex.kinds) :
    WMInv (wmAppend st rex) := by
  obtain ⟨hW1, hW2, hW3, hW4, hW5, hW6⟩ := hinv
  have hlen : 0 < rex.kinds.length := List.length_pos.2 hne
  refine ⟨?_, ?_, ?_, ?_, ?_, ?_⟩
  · show st.offset + rex.kinds.length = (st.kinds ++ rex.kinds.map (shiftKind st.offset)).length
    simp [List.length_append, hW1]
  · show fwdKinds (st.kinds ++ rex.kinds.map (shiftKind st.offset))
    rw [hW1]
    exact fwd_append_shift st.kinds rex.kinds hW2 hfwd
  · exact fun i hi => hW3 i hi
  · exact fun i hi => hW4 i hi
  · exact hW5
  · show st.anchor < st.offset + rex.kinds.length
    omega

theorem wmAdd_finish (st1 : WMState) (rex : Rex) (fb : Bool)
    (hinv1 : WMInv st1) (hpc1 : st1.productIds = [])
    (hne : rex.kinds ≠ []) (hfwd : fwdKinds rex.kinds) :
    WMInv (wmAppend
      (if fb then
        { kinds := st1.kinds ++ [RexKind.Product ⟨[]⟩]
          sumIds := st1.sumIds ++ [st1.anchor]
          productIds := st1.productIds ++ [st1.offset + 1]
          anchor := st1.offset
          offset := st1.offset + 1 }
       else { st1 with sumIds := st1.sumIds ++ [st1.anchor], anchor := st1.offset }) rex) := by
  obtain ⟨hQ1, hQ2, hQ3, hQ4, hQ5, hQ6⟩ := hinv1
  have hsum : ∀ i ∈ st1.sumIds ++ [st1.anchor], 0 < i := by
    intro i hi
    rcases List.mem_append.1 hi with h1 | h1
    · exact hQ4 i h1
    · rw [List.mem_singleton.1 h1]
      exact hQ5
  cases fb with
  | true =>
    simp only [if_true]
    refine wmAppend_inv _ rex ⟨?_, ?_, ?_, hsum, ?_, ?_⟩ hne hfwd
    · show st1.offset + 1 = (st1.kinds ++ [RexKind.Product ⟨[]⟩]).length
      simp [List.length_append, hQ1]
    · exact fwd_snoc_empty_product st1.kinds hQ2
    · intro i hi
      have hi2 : i ∈ st1.productIds ++ [st1.offset + 1] := hi
      rw [hpc1, List.nil_append] at hi2
      have he : i = st1.offset + 1 := List.mem_singleton.1 hi2
      show st1.offset < i
      omega
    · show 0 < st1.offset
      omega
    · show st1.offset < st1.offset + 1
      omega
  | false =>
    simp only [Bool.false_eq_true, if_false]
    have hlen : 0 < rex.kinds.length := List.length_pos.2 hne
    refine ⟨?_, ?_, ?_, hsum, ?_, ?_⟩
    · show st1.offset + rex.kinds.length
        = (st1.kinds ++ rex.kinds.map (shiftKind st1.offset)).length
      simp [List.length_append, hQ1]
    · show fwdKinds (st1.kinds ++ rex.kinds.map (shiftKind st1.offset))
      rw [hQ1]
      exact fwd_append_shift st1.kinds rex.kinds hQ2 hfwd
    · intro i hi
      have hi2 : i ∈ st1.productIds := hi
      rw [hpc1] at hi2
      exact absurd hi2 (List.not_mem_nil i)
    · show 0 < st1.offset
      omega
    · show st1.offset < st1.offset + rex.kinds.length
      omega

theorem wmStep_inv (st : WMState) (entry : (Option BinOp × Rex) × Bool) (st2 : WMState)
    (h : wmStep st entry = some st2) (hinv : WMInv st)
    (hne : entry.1.2.kinds ≠ []) (hfwd : fwdKinds entry.1.2.kinds) :
    WMInv st2 := by
  obtain ⟨⟨op, rex⟩, fb⟩ := entry
  cases op with
  | none =>
    simp only [wmStep, Option.some.injEq] at h
    subst h
    obtain ⟨hW1, hW2, hW3, hW4, hW5, hW6⟩ := hinv
    refine wmAppend_inv _ rex ⟨hW1, hW2, ?_, hW4, hW5, hW6⟩ hne hfwd
    intro i hi
    have hi2 : i ∈ st.productIds ++ [st.offset] := hi
    rcases List.mem_append.1 hi2 with h1 | h1
    · exact hW3 i h1
    · rw [List.mem_singleton.1 h1]
      exact hW6
  | some bop =>
    cases bop
    case Add =>
      simp only [wmStep] at h
      by_cases hpc : st.productIds = []
      · rw [if_pos hpc] at h
        simp only [Option.some_bind, Option.some.injEq] at h
        subst h
        exact wmAdd_finish st rex fb hinv hpc hne hfwd
      · obtain ⟨hW1, hW2, hW3, hW4, hW5, hW6⟩ := hinv
        rw [if_neg hpc] at h
        cases hga : st.kinds.get? st.anchor with
        | none => rw [hga] at h; cases h
        | some k =>
          rw [hga] at h
          cases k with
          | Product t =>
            simp only [Option.some_bind, Option.some.injEq] at h
            subst h
            have hanc : st.anchor < st.kinds.length := by
              by_contra hc
              push_neg at hc
              rw [List.get?_eq_none.2 hc] at hga
              cases hga
            have hinvM : WMInv { st with
                kinds := st.kinds.set st.anchor
                  (RexKind.Product ⟨t.ids ++ st.productIds⟩)
                productIds := [] } := by
              refine ⟨?_, ?_, fun i hi => absurd hi (List.not_mem_nil i), hW4, hW5, hW6⟩
              · show st.offset = (st.kinds.set st.anchor _).length
                rw [List.length_set]
                exact hW1
              · intro pos t2 ht2 i hi
                by_cases hp : st.anchor = pos
                · subst hp
                  unfold treeAt at ht2
                  rw [treeAt_set_eq _ _ _ hanc] at ht2
                  simp only [Option.some.injEq] at ht2
                  have ht2b : t2 = (⟨t.ids ++ st.productIds⟩ : RexTree) := by
                    rw [← ht2]
                  rw [ht2b] at hi
                  rcases List.mem_append.1 hi with h1 | h1
                  · have htt : treeAt st.kinds st.anchor = some t := by
                      unfold treeAt
                      rw [hga]
                    exact hW2 st.anchor t htt i h1
                  · exact hW3 i h1
                · rw [treeAt_set_ne _ _ _ _ hp] at ht2
                  exact hW2 pos t2 ht2 i hi
            exact wmAdd_finish _ rex fb hinvM rfl hne hfwd
          | Thin t => cases h
          | Fat f => cases h
          | Immediate im => cases h
          | Instance im => cases h
          | Sum t => cases h
    all_goals
      exfalso
      simp only [wmStep] at h
      cases h


theorem wmFold_inv :
    ∀ (entries : List ((Option BinOp × Rex) × Bool)) (st : WMState),
      WMInv st →
      (∀ e ∈ entries, e.1.2.kinds ≠ [] ∧ fwdKinds e.1.2.kinds) →
      ∀ st2, List.foldlM wmStep st entries = some st2 → WMInv st2 := by
  intro entries
  induction entries with
  | nil =>
    intro st hinv _ st2 h
    simp only [List.foldlM] at h
    cases h
    exact hinv
  | cons e es ih =>
    intro st hinv hes st2 h
    simp only [List.foldlM] at h
    cases hs : wmStep st e with
    | none => rw [hs] at h; cases h
    | some st1 =>
      rw [hs] at h
      have he := hes e (List.mem_cons_self _ _)
      exact ih st1 (wmStep_inv st e st1 hs hinv he.1 he.2)
        (fun e2 h2 => hes e2 (List.mem_cons_of_mem _ h2)) st2 h

theorem wmFinish_fwd (st : WMState) (r : Rex)
    (h : wmFinish st = some r) (hinv : WMInv st) : fwdKinds r.kinds := by
  obtain ⟨hW1, hW2, hW3, hW4, hW5, hW6⟩ := hinv
  unfold wmFinish at h
  by_cases hpc : st.productIds = []
  · rw [if_pos hpc] at h
    simp only [Option.map_some', Option.some.injEq] at h
    subst h
    intro pos t ht i hi
    by_cases hp : pos = 0
    · subst hp
      have hlen : 0 < st.kinds.length := by omega
      rw [treeAt_set_zero_sum _ _ hlen] at ht
      simp only [Option.some.injEq] at ht
      have htb : t = (⟨st.sumIds ++ [st.anchor]⟩ : RexTree) := by rw [← ht]
      rw [htb] at hi
      rcases List.mem_append.1 hi with h1 | h1
      · exact hW4 i h1
      · rw [List.mem_singleton.1 h1]
        exact hW5
    · rw [treeAt_set_ne _ _ _ _ (fun he => hp he.symm)] at ht
      exact hW2 pos t ht i hi
  · rw [if_neg hpc] at h
    by_cases hanc : st.anchor < st.kinds.length
    · rw [if_pos hanc] at h
      simp only [Option.map_some', Option.some.injEq] at h
      subst h
      intro pos t ht i hi
      by_cases hp : pos = 0
      · subst hp
        have hlen : 0 < (st.kinds.set st.anchor (RexKind.Product ⟨st.productIds⟩)).length := by
          rw [List.length_set]
          omega
        rw [treeAt_set_zero_sum _ _ hlen] at ht
        simp only [Option.some.injEq] at ht
        have htb : t = (⟨st.sumIds ++ [st.anchor]⟩ : RexTree) := by rw [← ht]
        rw [htb] at hi
        rcases List.mem_append.1 hi with h1 | h1
        · exact hW4 i h1
        · rw [List.mem_singleton.1 h1]
          exact hW5
      · rw [treeAt_set_ne _ _ _ _ (fun he => hp he.symm)] at ht
        by_cases hp2 : st.anchor = pos
        · subst hp2
          unfold treeAt at ht
          rw [treeAt_set_eq _ _ _ hanc] at ht
          simp only [Option.some.injEq] at ht
          have htb : t = (⟨st.productIds⟩ : RexTree) := by rw [← ht]
          rw [htb] at hi
          exact hW3 i hi
        · rw [treeAt_set_ne _ _ _ _ hp2] at ht
          exact hW2 pos t ht i hi
    · rw [if_neg hanc] at h
      cases h

theorem wmFinish_nonempty (st : WMState) (r : Rex)
    (h : wmFinish st = some r) (hinv : WMInv st) : r.kinds ≠ [] := by
  obtain ⟨hW1, _, _, _, _, hW6⟩ := hinv
  have hlen : 0 < st.kinds.length := by omega
  unfold wmFinish at h
  by_cases hpc : st.productIds = []
  · rw [if_pos hpc] at h
    simp only [Option.map_some', Option.some.injEq] at h
    subst h
    intro hc
    have := congrArg List.length hc
    rw [List.length_set] at this
    simp only [List.length_nil] at this
    omega
  · rw [if_neg hpc] at h
    by_cases hanc : st.anchor < st.kinds.length
    · rw [if_pos hanc] at h
      simp only [Option.map_some', Option.some.injEq] at h
      subst h
      intro hc
      have := congrArg List.length hc
      rw [List.length_set, List.length_set] at this
      simp only [List.length_nil] at this
      omega
    · rw [if_neg hanc] at h
      cases h


theorem fwdKinds_singleton_sum : fwdKinds [RexKind.Sum ⟨[]⟩] := by
  intro pos t ht i hi
  match pos with
  | 0 =>
    rw [show treeAt [RexKind.Sum ⟨[]⟩] 0 = some ⟨[]⟩ from rfl] at ht
    cases ht
    cases hi
  | n + 1 => cases ht

theorem fwdKinds_sum_product_pair : fwdKinds [RexKind.Sum ⟨[]⟩, RexKind.Product ⟨[]⟩] := by
  intro pos t ht i hi
  match pos with
  | 0 =>
    rw [show treeAt [RexKind.Sum ⟨[]⟩, RexKind.Product ⟨[]⟩] 0 = some ⟨[]⟩ from rfl] at ht
    cases ht
    cases hi
  | 1 =>
    rw [show treeAt [RexKind.Sum ⟨[]⟩, RexKind.Product ⟨[]⟩] 1 = some ⟨[]⟩ from rfl] at ht
    cases ht
    cases hi
  | n + 2 => cases ht

theorem with_more_fwd (self : Rex) (rexlist : List (Option BinOp × Rex)) (r2 : Rex)
    (h : Rex.with_more self rexlist = some r2)
    (hself : fwdKinds self.kinds ∧ self.kinds ≠ [])
    (hlist : ∀ p ∈ rexlist, fwdKinds p.2.kinds ∧ p.2.kinds ≠ []) :
    fwdKinds r2.kinds ∧ r2.kinds ≠ [] := by
  have hselflen : 0 < self.kinds.length := List.length_pos.2 hself.2
  cases rexlist with
  | nil =>
    simp only [Rex.with_more, Option.some.injEq] at h
    subst h
    exact hself
  | cons first rest =>
    simp only [Rex.with_more] at h
    by_cases hall : (first :: rest).all (fun p => p.1.isNone) = true
    · rw [if_pos hall] at h
      simp only [Option.some.injEq] at h
      subst h
      have hf0 : fwdKinds (RexKind.Product ⟨[]⟩ :: self.kinds.map (shiftKind 1)) := by
        have := fwd_append_shift [RexKind.Product ⟨[]⟩] self.kinds
          fwdKinds_singleton_product hself.1
        exact this
      have hoff0 : 1 + self.kinds.length
          = (RexKind.Product ⟨[]⟩ :: self.kinds.map (shiftKind 1)).length := by
        simp [List.length_cons]
        omega
      rcases plussless_spec (first :: rest)
        (RexKind.Product ⟨[]⟩ :: self.kinds.map (shiftKind 1)) [1]
        (1 + self.kinds.length) hoff0 hf0
        (fun p hp => (hlist p hp).1) with ⟨c1, c2, c3⟩
      have hreslen : 0 < (plusslessGo (RexKind.Product ⟨[]⟩ :: self.kinds.map (shiftKind 1))
          [1] (1 + self.kinds.length) (first :: rest)).1.length := by
        have : 0 < (RexKind.Product ⟨[]⟩ :: self.kinds.map (shiftKind 1)).length := by
          simp [List.length_cons]
        omega
      constructor
      · intro pos t ht i hi
        by_cases hp : pos = 0
        · subst hp
          rw [treeAt_set_zero_product _ _ hreslen] at ht
          simp only [Option.some.injEq] at ht
          have htb : t = (⟨(plusslessGo (RexKind.Product ⟨[]⟩ :: self.kinds.map (shiftKind 1))
              [1] (1 + self.kinds.length) (first :: rest)).2⟩ : RexTree) := by rw [← ht]
          rw [htb] at hi
          rcases c2 i hi (by omega) with h1 | h1
          · exact h1
          · rw [List.mem_singleton.1 h1]
            omega
        · rw [treeAt_set_ne _ _ _ _ (fun he => hp he.symm)] at ht
          exact c1 pos t ht i hi
      · intro hc
        have := congrArg List.length hc
        rw [List.length_set] at this
        simp only [List.length_nil] at this
        omega
    · rw [if_neg hall] at h
      have hst0 : ∀ st0,
          (st0 = wmAppend { kinds := [RexKind.Sum ⟨[]⟩, RexKind.Product ⟨[]⟩], sumIds := []
                            productIds := [2], anchor := 1, offset := 2 } self
           ∨ st0 = wmAppend { kinds := [RexKind.Sum ⟨[]⟩], sumIds := []
                              productIds := [], anchor := 1, offset := 1 } self) →
          WMInv st0 := by
        intro st0 hd
        rcases hd with hd | hd <;> subst hd
        · refine ⟨?_, ?_, ?_, ?_, ?_, ?_⟩
          · show 2 + self.kinds.length
              = ([RexKind.Sum ⟨[]⟩, RexKind.Product ⟨[]⟩]
                  ++ self.kinds.map (shiftKind 2)).length
            simp [List.length_append]
            omega
          · show fwdKinds ([RexKind.Sum ⟨[]⟩, RexKind.Product ⟨[]⟩]
              ++ self.kinds.map (shiftKind 2))
            exact fwd_append_shift [RexKind.Sum ⟨[]⟩, RexKind.Product ⟨[]⟩] self.kinds
              fwdKinds_sum_product_pair hself.1
          · intro i hi
            have hi2 : i ∈ [2] := hi
            rw [List.mem_singleton.1 hi2]
            show 1 < 2
            omega
          · intro i hi
            exact absurd hi (List.not_mem_nil i)
          · show 0 < 1
            omega
          · show 1 < 2 + self.kinds.length
            omega
        · refine ⟨?_, ?_, ?_, ?_, ?_, ?_⟩
          · show 1 + self.kinds.length
              = ([RexKind.Sum ⟨[]⟩] ++ self.kinds.map (shiftKind 1)).length
            simp [List.length_append]
            omega
          · show fwdKinds ([RexKind.Sum ⟨[]⟩] ++ self.kinds.map (shiftKind 1))
            exact fwd_append_shift [RexKind.Sum ⟨[]⟩] self.kinds
              fwdKinds_singleton_sum hself.1
          · intro i hi
            exact absurd hi (List.not_mem_nil i)
          · intro i hi
            exact absurd hi (List.not_mem_nil i)
          · show 0 < 1
            omega
          · show 1 < 1 + self.kinds.length
            omega
      have hentries : ∀ e ∈ (first :: rest).zip
          (((first :: rest).map (fun p => p.1.isNone)).drop 1 ++ [false]),
          e.1.2.kinds ≠ [] ∧ fwdKinds e.1.2.kinds := by
        intro e he
        have hmem := List.of_mem_zip he
        have := hlist e.1 hmem.1
        exact ⟨this.2, this.1⟩
      by_cases hf0 : first.1.isNone = true
      · rw [if_pos hf0] at h
        cases hfold : List.foldlM wmStep (wmAppend
            { kinds := [RexKind.Sum ⟨[]⟩, RexKind.Product ⟨[]⟩], sumIds := []
              productIds := [2], anchor := 1, offset := 2 } self)
            ((first :: rest).zip
              (((first :: rest).map (fun p => p.1.isNone)).drop 1 ++ [false])) with
        | none => rw [hfold] at h; cases h
        | some stf =>
          rw [hfold] at h
          simp only [Option.some_bind] at h
          have hinvf := wmFold_inv _ _ (hst0 _ (Or.inl rfl)) hentries stf hfold
          exact ⟨wmFinish_fwd stf r2 h hinvf, wmFinish_nonempty stf r2 h hinvf⟩
      · rw [if_neg hf0] at h
        cases hfold : List.foldlM wmStep (wmAppend
            { kinds := [RexKind.Sum ⟨[]⟩], sumIds := []
              productIds := [], anchor := 1, offset := 1 } self)
            ((first :: rest).zip
              (((first :: rest).map (fun p => p.1.isNone)).drop 1 ++ [false])) with
        | none => rw [hfold] at h; cases h
        | some stf =>
          rw [hfold] at h
          simp only [Option.some_bind] at h
          have hinvf := wmFold_inv _ _ (hst0 _ (Or.inr rfl)) hentries stf hfold
          exact ⟨wmFinish_fwd stf r2 h hinvf, wmFinish_nonempty stf r2 h hinvf⟩


theorem built_fwd : ∀ r : Rex, Built r → fwdKinds r.kinds ∧ r.kinds ≠ [] := by
  intro r hb
  induction hb with
  | thin t =>
    refine ⟨?_, by simp⟩
    intro pos t2 ht i hi
    match pos with
    | 0 => cases ht
    | n + 1 => cases ht
  | fat f =>
    refine ⟨?_, by simp⟩
    intro pos t2 ht i hi
    match pos with
    | 0 => cases ht
    | n + 1 => cases ht
  | immediate im =>
    refine ⟨?_, by simp⟩
    intro pos t2 ht i hi
    match pos with
    | 0 => cases ht
    | n + 1 => cases ht
  | inst im =>
    refine ⟨?_, by simp⟩
    intro pos t2 ht i hi
    match pos with
    | 0 => cases ht
    | n + 1 => cases ht
  | more r0 l r2 hbr hbl hw ihr ihl =>
    exact with_more_fwd r0 l r2 hw ihr ihl


theorem rewriteZeros_ge :
    ∀ (ids : List Nat) (ndx k : Nat) (out : List Nat),
      rewriteZeros ndx k ids = some out → ∀ v ∈ out, ndx + k ≤ v := by
  intro ids
  induction ids with
  | nil =>
    intro ndx k out h v hv
    simp only [rewriteZeros] at h
    cases h
    cases hv
  | cons i is ih =>
    intro ndx k out h v hv
    simp only [rewriteZeros] at h
    by_cases hz : i = 0
    · rw [if_pos hz] at h
      cases hr : rewriteZeros ndx (k + 1) is with
      | none => rw [hr] at h; cases h
      | some l =>
        rw [hr] at h
        simp only [Option.map_some', Option.some.injEq] at h
        subst h
        rcases List.mem_cons.1 hv with h1 | h1
        · omega
        · have := ih ndx (k + 1) l hr v h1
          omega
    · rw [if_neg hz] at h
      cases h

theorem mapIdsPos_src :
    ∀ (ids : List Nat) (im : List Nat) (out : List Nat),
      mapIdsPos im ids = some out →
      ∀ v ∈ out, ∃ i ∈ ids, 0 < i ∧ im.get? i = some v := by
  intro ids
  induction ids with
  | nil =>
    intro im out h v hv
    simp only [mapIdsPos] at h
    cases h
    cases hv
  | cons i is ih =>
    intro im out h v hv
    simp only [mapIdsPos] at h
    by_cases hp : 0 < i
    · rw [if_pos hp] at h
      cases hg : im.get? i with
      | none => rw [hg] at h; cases h
      | some w =>
        rw [hg] at h
        cases hr : mapIdsPos im is with
        | none => rw [hr] at h; cases h
        | some l =>
          rw [hr] at h
          simp only [Option.map_some', Option.some.injEq] at h
          subst h
          rcases List.mem_cons.1 hv with h1 | h1
          · exact ⟨i, List.mem_cons_self _ _, hp, by rw [hg, h1]⟩
          · rcases ih im l hr v h1 with ⟨i2, hi2, hp2, hg2⟩
            exact ⟨i2, List.mem_cons_of_mem _ hi2, hp2, hg2⟩
    · rw [if_neg hp] at h
      cases h

theorem pairwise_lt_get (l : List Nat) (hpw : List.Pairwise (fun a b => a < b) l) :
    ∀ (p i a b : Nat), l.get? p = some a → l.get? i = some b → p < i → a < b := by
  intro p i a b hp hi hlt
  have hpl : p < l.length := by
    by_contra hc
    push_neg at hc
    rw [List.get?_eq_none.2 hc] at hp
    cases hp
  have hil : i < l.length := by
    by_contra hc
    push_neg at hc
    rw [List.get?_eq_none.2 hc] at hi
    cases hi
  have ha : l.get ⟨p, hpl⟩ = a := by
    rw [← Option.some.injEq]
    rw [← List.get?_eq_get hpl]
    exact hp
  have hb : l.get ⟨i, hil⟩ = b := by
    rw [← Option.some.injEq]
    rw [← List.get?_eq_get hil]
    exact hi
  have := List.pairwise_iff_get.1 hpw ⟨p, hpl⟩ ⟨i, hil⟩ hlt
  rw [ha, hb] at this
  exact this


theorem remapAllGo_get :
    ∀ (ks : List RexKind) (idMap : List Nat) (ndx : Nat) (out : List RexKind),
      remapAllGo idMap ndx ks = some out →
      ∀ q,
        (∀ t0, ks.get? q = some (RexKind.Product t0) →
          ∃ ids2, remapIds idMap (ndx + q) t0.ids = some ids2
            ∧ out.get? q = some (RexKind.Product ⟨ids2⟩))
        ∧ (∀ t0, ks.get? q = some (RexKind.Sum t0) →
          ∃ ids2, remapIds idMap (ndx + q) t0.ids = some ids2
            ∧ out.get? q = some (RexKind.Sum ⟨ids2⟩))
        ∧ (∀ k, ks.get? q = some k → isTreeNode k = false → out.get? q = some k)
        ∧ (ks.get? q = none → out.get? q = none) := by
  intro ks
  induction ks with
  | nil =>
    intro idMap ndx out h q
    simp only [remapAllGo] at h
    cases h
    refine ⟨?_, ?_, ?_, ?_⟩
    · intro t0 hg; rw [List.get?_nil] at hg; cases hg
    · intro t0 hg; rw [List.get?_nil] at hg; cases hg
    · intro k hg _; rw [List.get?_nil] at hg; cases hg
    · intro _; rw [List.get?_nil]
  | cons k0 rest ih =>
    intro idMap ndx out h q
    have hrec : ∀ (out2 : List RexKind), remapAllGo idMap (ndx + 1) rest = some out2 →
        ∀ (hd : RexKind), out = hd :: out2 →
        (∀ t0, (k0 :: rest).get? q = some (RexKind.Product t0) →
          (q = 0 → hd = RexKind.Product t0 →
            ∃ ids2, remapIds idMap ndx t0.ids = some ids2) → True) → True :=
      fun _ _ _ _ _ => trivial
    clear hrec
    cases q with
    | zero =>
      cases k0 with
      | Product t =>
        simp only [remapAllGo] at h
        cases h1 : remapIds idMap ndx t.ids with
        | none => rw [h1] at h; cases h
        | some ids2 =>
          rw [h1] at h
          simp only [Option.some_bind] at h
          cases h2 : remapAllGo idMap (ndx + 1) rest with
          | none => rw [h2] at h; cases h
          | some out2 =>
            rw [h2] at h
            simp only [Option.map_some', Option.some.injEq] at h
            subst h
            refine ⟨?_, ?_, ?_, ?_⟩
            · intro t0 hg
              have ht0 : t0 = t := by
                have : (RexKind.Product t :: rest).get? 0 = some (RexKind.Product t) := rfl
                rw [hg] at this
                cases this
                rfl
              subst ht0
              exact ⟨ids2, by rw [Nat.add_zero]; exact h1, rfl⟩
            · intro t0 hg; cases hg
            · intro k hg hnt
              have hk : k = RexKind.Product t := by
                have : (RexKind.Product t :: rest).get? 0 = some (RexKind.Product t) := rfl
                rw [hg] at this
                cases this
                rfl
              rw [hk] at hnt
              cases hnt
            · intro hg; cases hg
      | Sum t =>
        simp only [remapAllGo] at h
        cases h1 : remapIds idMap ndx t.ids with
        | none => rw [h1] at h; cases h
        | some ids2 =>
          rw [h1] at h
          simp only [Option.some_bind] at h
          cases h2 : remapAllGo idMap (ndx + 1) rest with
          | none => rw [h2] at h; cases h
          | some out2 =>
            rw [h2] at h
            simp only [Option.map_some', Option.some.injEq] at h
            subst h
            refine ⟨?_, ?_, ?_, ?_⟩
            · intro t0 hg; cases hg
            · intro t0 hg
              have ht0 : t0 = t := by
                have : (RexKind.Sum t :: rest).get? 0 = some (RexKind.Sum t) := rfl
                rw [hg] at this
                cases this
                rfl
              subst ht0
              exact ⟨ids2, by rw [Nat.add_zero]; exact h1, rfl⟩
            · intro k hg hnt
              have hk : k = RexKind.Sum t := by
                have : (RexKind.Sum t :: rest).get? 0 = some (RexKind.Sum t) := rfl
                rw [hg] at this
                cases this
                rfl
              rw [hk] at hnt
              cases hnt
            · intro hg; cases hg
      | Thin t =>
        simp only [remapAllGo] at h
        cases h2 : remapAllGo idMap (ndx + 1) rest with
        | none => rw [h2] at h; cases h
        | some out2 =>
          rw [h2] at h
          simp only [Option.map_some', Option.some.injEq] at h
          subst h
          refine ⟨fun t0 hg => ?_, fun t0 hg => ?_, fun k hg _ => ?_, fun hg => ?_⟩
          · cases hg
          · cases hg
          · rw [← hg]
            rfl
          · cases hg
      | Fat f =>
        simp only [remapAllGo] at h
        cases h2 : remapAllGo idMap (ndx + 1) rest with
        | none => rw [h2] at h; cases h
        | some out2 =>
          rw [h2] at h
          simp only [Option.map_some', Option.some.injEq] at h
          subst h
          refine ⟨fun t0 hg => ?_, fun t0 hg => ?_, fun k hg _ => ?_, fun hg => ?_⟩
          · cases hg
          · cases hg
          · rw [← hg]
            rfl
          · cases hg
      | Immediate im2 =>
        simp only [remapAllGo] at h
        cases h2 : remapAllGo idMap (ndx + 1) rest with
        | none => rw [h2] at h; cases h
        | some out2 =>
          rw [h2] at h
          simp only [Option.map_some', Option.some.injEq] at h
          subst h
          refine ⟨fun t0 hg => ?_, fun t0 hg => ?_, fun k hg _ => ?_, fun hg => ?_⟩
          · cases hg
          · cases hg
          · rw [← hg]
            rfl
          · cases hg
      | Instance im2 =>
        simp only [remapAllGo] at h
        cases h2 : remapAllGo idMap (ndx + 1) rest with
        | none => rw [h2] at h; cases h
        | some out2 =>
          rw [h2] at h
          simp only [Option.map_some', Option.some.injEq] at h
          subst h
          refine ⟨fun t0 hg => ?_, fun t0 hg => ?_, fun k hg _ => ?_, fun hg => ?_⟩
          · cases hg
          · cases hg
          · rw [← hg]
            rfl
          · cases hg
    | succ q2 =>
      have hsplit : ∃ hd out2, out = hd :: out2 ∧ remapAllGo idMap (ndx + 1) rest = some out2 := by
        cases k0 with
        | Product t =>
          simp only [remapAllGo] at h
          cases h1 : remapIds idMap ndx t.ids with
          | none => rw [h1] at h; cases h
          | some ids2 =>
            rw [h1] at h
            simp only [Option.some_bind] at h
            cases h2 : remapAllGo idMap (ndx + 1) rest with
            | none => rw [h2] at h; cases h
            | some out2 =>
              rw [h2] at h
              simp only [Option.map_some', Option.some.injEq] at h
              exact ⟨_, out2, h.symm, rfl⟩
        | Sum t =>
          simp only [remapAllGo] at h
          cases h1 : remapIds idMap ndx t.ids with
          | none => rw [h1] at h; cases h
          | some ids2 =>
            rw [h1] at h
            simp only [Option.some_bind] at h
            cases h2 : remapAllGo idMap (ndx + 1) rest with
            | none => rw [h2] at h; cases h
            | some out2 =>
              rw [h2] at h
              simp only [Option.map_some', Option.some.injEq] at h
              exact ⟨_, out2, h.symm, rfl⟩
        | Thin t =>
          simp only [remapAllGo] at h
          cases h2 : remapAllGo idMap (ndx + 1) rest with
          | none => rw [h2] at h; cases h
          | some out2 =>
            rw [h2] at h
            simp only [Option.map_some', Option.some.injEq] at h
            exact ⟨_, out2, h.symm, rfl⟩
        | Fat f =>
          simp only [remapAllGo] at h
          cases h2 : remapAllGo idMap (ndx + 1) rest with
          | none => rw [h2] at h; cases h
          | some out2 =>
            rw [h2] at h
            simp only [Option.map_some', Option.some.injEq] at h
            exact ⟨_, out2, h.symm, rfl⟩
        | Immediate im2 =>
          simp only [remapAllGo] at h
          cases h2 : remapAllGo idMap (ndx + 1) rest with
          | none => rw [h2] at h; cases h
          | some out2 =>
            rw [h2] at h
            simp only [Option.map_some', Option.some.injEq] at h
            exact ⟨_, out2, h.symm, rfl⟩
        | Instance im2 =>
          simp only [remapAllGo] at h
          cases h2 : remapAllGo idMap (ndx + 1) rest with
          | none => rw [h2] at h; cases h
          | some out2 =>
            rw [h2] at h
            simp only [Option.map_some', Option.some.injEq] at h
            exact ⟨_, out2, h.symm, rfl⟩
      rcases hsplit with ⟨hd, out2, hout, h2⟩
      subst hout
      have := ih idMap (ndx + 1) out2 h2 q2
      refine ⟨?_, ?_, ?_, ?_⟩
      · intro t0 hg
        rcases this.1 t0 hg with ⟨ids2, hri, hget⟩
        refine ⟨ids2, ?_, hget⟩
        have harith : ndx + 1 + q2 = ndx + (q2 + 1) := by omega
        rw [← harith]
        exact hri
      · intro t0 hg
        rcases this.2.1 t0 hg with ⟨ids2, hri, hget⟩
        refine ⟨ids2, ?_, hget⟩
        have harith : ndx + 1 + q2 = ndx + (q2 + 1) := by omega
        rw [← harith]
        exact hri
      · exact this.2.2.1
      · exact this.2.2.2


theorem expand_hyps (acc : List RexKind) (idMap : List Nat) (block : List RexKind)
    (H1 : ∀ q ∈ idMap, q < acc.length)
    (H2 : List.Pairwise (fun a b => a < b) idMap)
    (H3 : ∀ q k, acc.get? q = some k → isTreeNode k = true → ∃ p, idMap.get? p = some q)
    (hbne : block ≠ [])
    (hbtree : ∀ j k, block.get? (j + 1) = some k → isTreeNode k = false) :
    (∀ q ∈ idMap ++ [acc.length], q < (acc ++ block).length)
    ∧ List.Pairwise (fun a b => a < b) (idMap ++ [acc.length])
    ∧ (∀ q k, (acc ++ block).get? q = some k → isTreeNode k = true →
        ∃ p, (idMap ++ [acc.length]).get? p = some q) := by
  have hblen : 0 < block.length := List.length_pos.2 hbne
  refine ⟨?_, ?_, ?_⟩
  · intro q hq
    rw [List.length_append]
    rcases List.mem_append.1 hq with h1 | h1
    · have := H1 q h1
      omega
    · rw [List.mem_singleton.1 h1]
      omega
  · rw [List.pairwise_append]
    refine ⟨H2, List.pairwise_singleton _ _, ?_⟩
    intro a ha b hb
    rw [List.mem_singleton.1 hb]
    exact H1 a ha
  · intro q k hg ht
    by_cases hq : q < acc.length
    · rw [List.get?_append hq] at hg
      rcases H3 q k hg ht with ⟨p, hp⟩
      have hplen : p < idMap.length := by
        by_contra hc
        push_neg at hc
        rw [List.get?_eq_none.2 hc] at hp
        cases hp
      exact ⟨p, by rw [List.get?_append hplen]; exact hp⟩
    · push_neg at hq
      rw [List.get?_append_right hq] at hg
      cases hj : q - acc.length with
      | zero =>
        have hqe : q = acc.length := by omega
        refine ⟨idMap.length, ?_⟩
        rw [hqe, List.get?_concat_length]
      | succ j2 =>
        rw [hj] at hg
        rw [hbtree j2 k hg] at ht
        cases ht

theorem fitExpandGo_spec :
    ∀ (olds acc : List RexKind) (idMap : List Nat) (nk : List RexKind) (im : List Nat),
      fitExpandGo olds acc idMap = some (nk, im) →
      (∀ q ∈ idMap, q < acc.length) →
      List.Pairwise (fun a b => a < b) idMap →
      (∀ q k, acc.get? q = some k → isTreeNode k = true → ∃ p, idMap.get? p = some q) →
      im.length = idMap.length + olds.length
      ∧ (∀ j, j < idMap.length → im.get? j = idMap.get? j)
      ∧ List.Pairwise (fun a b => a < b) im
      ∧ (∀ q, q < acc.length → nk.get? q = acc.get? q)
      ∧ (∀ p q, im.get? (idMap.length + p) = some q →
          ∃ kp, olds.get? p = some kp
          ∧ ((∃ far tars, kp = RexKind.Fat far ∧ fit far = some tars
              ∧ nk.get? q = some (RexKind.Sum ⟨List.replicate tars.length 0⟩))
            ∨ (kp.isFat = false ∧ nk.get? q = some kp)))
      ∧ (∀ q k, nk.get? q = some k → isTreeNode k = true → ∃ p, im.get? p = some q) := by
  intro olds
  induction olds with
  | nil =>
    intro acc idMap nk im h H1 H2 H3
    simp only [fitExpandGo, Option.some.injEq, Prod.mk.injEq] at h
    obtain ⟨h1, h2⟩ := h
    subst h1
    subst h2
    refine ⟨by simp, fun j _ => rfl, H2, fun q _ => rfl, ?_, H3⟩
    intro p q hq
    exfalso
    have hnone : idMap.get? (idMap.length + p) = none := by
      refine List.get?_eq_none.2 ?_
      omega
    rw [hnone] at hq
    cases hq
  | cons k0 rest ih =>
    intro acc idMap nk im h H1 H2 H3
    by_cases hfat : ∃ far, k0 = RexKind.Fat far
    · rcases hfat with ⟨far, hfar⟩
      subst hfar
      simp only [fitExpandGo] at h
      cases hfit : fit far with
      | none => rw [hfit] at h; cases h
      | some tars =>
        rw [hfit] at h
        simp only [Option.some_bind] at h
        have hbt : ∀ j k, (RexKind.Sum ⟨List.replicate tars.length 0⟩
            :: tars.map RexKind.Thin).get? (j + 1) = some k → isTreeNode k = false := by
          intro j k hg
          have hg2 : (tars.map RexKind.Thin).get? j = some k := hg
          cases hmj : (tars.map RexKind.Thin).get? j with
          | none => rw [hmj] at hg2; cases hg2
          | some k2 =>
            rw [hmj] at hg2
            cases hg2
            rw [List.get?_map] at hmj
            cases hmt : tars.get? j with
            | none => rw [hmt] at hmj; cases hmj
            | some t2 =>
              rw [hmt] at hmj
              simp only [Option.map_some', Option.some.injEq] at hmj
              rw [← hmj]
              rfl
        have hhyps := expand_hyps acc idMap
          (RexKind.Sum ⟨List.replicate tars.length 0⟩ :: tars.map RexKind.Thin)
          H1 H2 H3 (by simp) hbt
        rcases ih (acc ++ RexKind.Sum ⟨List.replicate tars.length 0⟩ :: tars.map RexKind.Thin)
          (idMap ++ [acc.length]) nk im h hhyps.1 hhyps.2.1 hhyps.2.2 with
          ⟨a2, b2, d2, e2, f2, g2⟩
        have hlens : (idMap ++ [acc.length]).length = idMap.length + 1 := by simp
        have hacclen : (acc ++ RexKind.Sum ⟨List.replicate tars.length 0⟩
            :: tars.map RexKind.Thin).length = acc.length + (1 + tars.length) := by
          simp [List.length_append]
          omega
        refine ⟨?_, ?_, d2, ?_, ?_, g2⟩
        · rw [a2, hlens]
          simp [List.length_cons]
          omega
        · intro j hj
          have := b2 j (by omega)
          rw [this, List.get?_append hj]
        · intro q hq
          have := e2 q (by rw [List.length_append]; omega)
          rw [this, List.get?_append hq]
        · intro p q hq
          cases p with
          | zero =>
            have hq0 : im.get? idMap.length = some acc.length := by
              have hb := b2 idMap.length (by omega)
              rw [List.get?_concat_length] at hb
              exact hb
            rw [Nat.add_zero] at hq
            have hqe : q = acc.length := by
              rw [hq0] at hq
              cases hq
              rfl
            subst hqe
            refine ⟨RexKind.Fat far, rfl, Or.inl ⟨far, tars, rfl, hfit, ?_⟩⟩
            have := e2 acc.length (by rw [List.length_append]; simp [List.length_cons])
            rw [this, List.get?_append_right (Nat.le_refl _), Nat.sub_self]
            rfl
          | succ p2 =>
            have harith : idMap.length + (p2 + 1) = (idMap ++ [acc.length]).length + p2 := by
              rw [hlens]
              omega
            rw [harith] at hq
            rcases f2 p2 q hq with ⟨kp, hkp, hcont⟩
            exact ⟨kp, hkp, hcont⟩
    · have hstep : fitExpandGo (k0 :: rest) acc idMap
          = fitExpandGo rest (acc ++ [k0]) (idMap ++ [acc.length]) := by
        cases k0 with
        | Fat f => exact absurd ⟨f, rfl⟩ hfat
        | Thin t => rfl
        | Immediate i2 => rfl
        | Instance i2 => rfl
        | Product t => rfl
        | Sum t => rfl
      rw [hstep] at h
      have hk0nf : k0.isFat = false := by
        cases k0 with
        | Fat f => exact absurd ⟨f, rfl⟩ hfat
        | Thin t => rfl
        | Immediate i2 => rfl
        | Instance i2 => rfl
        | Product t => rfl
        | Sum t => rfl
      have hbt : ∀ j k, ([k0] : List RexKind).get? (j + 1) = some k →
          isTreeNode k = false := by
        intro j k hg
        have hg2 : ([] : List RexKind).get? j = some k := hg
        rw [List.get?_nil] at hg2
        cases hg2
      have hhyps := expand_hyps acc idMap [k0] H1 H2 H3 (by simp) hbt
      rcases ih (acc ++ [k0]) (idMap ++ [acc.length]) nk im h
        hhyps.1 hhyps.2.1 hhyps.2.2 with ⟨a2, b2, d2, e2, f2, g2⟩
      have hlens : (idMap ++ [acc.length]).length = idMap.length + 1 := by simp
      refine ⟨?_, ?_, d2, ?_, ?_, g2⟩
      · rw [a2, hlens]
        simp [List.length_cons]
        omega
      · intro j hj
        have := b2 j (by omega)
        rw [this, List.get?_append hj]
      · intro q hq
        have := e2 q (by rw [List.length_append]; omega)
        rw [this, List.get?_append hq]
      · intro p q hq
        cases p with
        | zero =>
          have hq0 : im.get? idMap.length = some acc.length := by
            have hb := b2 idMap.length (by omega)
            rw [List.get?_concat_length] at hb
            exact hb
          rw [Nat.add_zero] at hq
          have hqe : q = acc.length := by
            rw [hq0] at hq
            cases hq
            rfl
          subst hqe
          refine ⟨k0, rfl, Or.inr ⟨hk0nf, ?_⟩⟩
          have := e2 acc.length (by rw [List.length_append]; simp)
          rw [this, List.get?_append_right (Nat.le_refl _), Nat.sub_self]
          rfl
        | succ p2 =>
          have harith : idMap.length + (p2 + 1) = (idMap ++ [acc.length]).length + p2 := by
            rw [hlens]
            omega
          rw [harith] at hq
          rcases f2 p2 q hq with ⟨kp, hkp, hcont⟩
          exact ⟨kp, hkp, hcont⟩


theorem remapIds_fwd (im : List Nat) (hpw : List.Pairwise (fun a b => a < b) im)
    (p pos : Nat) (hp : im.get? p = some pos)
    (ids ids2 : List Nat)
    (hold : ∀ i ∈ ids, p < i)
    (hri : remapIds im pos ids = some ids2) :
    ∀ v ∈ ids2, pos < v := by
  intro v hv
  cases ids with
  | nil => cases hri
  | cons first rest =>
    have hfirst : 0 < first := by
      have := hold first (List.mem_cons_self _ _)
      omega
    simp only [remapIds, if_pos hfirst] at hri
    rcases mapIdsPos_src (first :: rest) im ids2 hri v hv with ⟨isrc, hin, _, hget⟩
    exact pairwise_lt_get im hpw p isrc pos v hp hget (hold isrc hin)

theorem remapIds_zeros_fwd (im : List Nat) (pos n : Nat) (ids2 : List Nat)
    (hri : remapIds im pos (List.replicate n 0) = some ids2) :
    ∀ v ∈ ids2, pos < v := by
  intro v hv
  cases n with
  | zero => cases hri
  | succ m =>
    rw [List.replicate_succ] at hri
    simp only [remapIds, Nat.lt_irrefl, if_false] at hri
    have := rewriteZeros_ge (0 :: List.replicate m 0) pos 1 ids2 hri v hv
    omega

theorem fit_clone_fwd (r r2 : Rex) (hfwd : fwdKinds r.kinds)
    (h : r.fit_clone = some r2) : fwdKinds r2.kinds := by
  unfold Rex.fit_clone at h
  cases he : fitExpandGo r.kinds [] [] with
  | none => rw [he] at h; cases h
  | some pex =>
    rw [he] at h
    simp only [Option.some_bind] at h
    cases hr : remapAllGo pex.2 0 pex.1 with
    | none => rw [hr] at h; cases h
    | some ks2 =>
      rw [hr] at h
      simp only [Option.map_some', Option.some.injEq] at h
      subst h
      rcases fitExpandGo_spec r.kinds [] [] pex.1 pex.2 he
        (fun q hq => absurd hq (List.not_mem_nil q)) List.Pairwise.nil
        (fun q k hg _ => by rw [List.get?_nil] at hg; cases hg) with
        ⟨_, _, hpw, _, hf, hg⟩
      have hf2 : ∀ p q, pex.2.get? p = some q →
          ∃ kp, r.kinds.get? p = some kp
          ∧ ((∃ far tars, kp = RexKind.Fat far ∧ fit far = some tars
              ∧ pex.1.get? q = some (RexKind.Sum ⟨List.replicate tars.length 0⟩))
            ∨ (kp.isFat = false ∧ pex.1.get? q = some kp)) := by
        intro p q hpq
        refine hf p q ?_
        rw [List.length_nil, Nat.zero_add]
        exact hpq
      intro pos t ht i2 hi2
      unfold treeAt at ht
      have hquad := remapAllGo_get pex.1 pex.2 0 ks2 hr pos
      have hremap : ∃ ids2, (t : RexTree) = ⟨ids2⟩
          ∧ ∃ t1, remapIds pex.2 pos t1.ids = some ids2
          ∧ (pex.1.get? pos = some (RexKind.Product t1)
             ∨ pex.1.get? pos = some (RexKind.Sum t1)) := by
        cases hk : ks2.get? pos with
        | none => rw [hk] at ht; cases ht
        | some k =>
          rw [hk] at ht
          cases hnk : pex.1.get? pos with
          | none =>
            rw [hquad.2.2.2 hnk] at hk
            cases hk
          | some k1 =>
            cases k1 with
            | Product t1 =>
              rcases hquad.1 t1 hnk with ⟨ids2, hri, hout⟩
              rw [hout] at hk
              cases hk
              cases ht
              refine ⟨ids2, rfl, t1, ?_, Or.inl rfl⟩
              rw [← Nat.zero_add pos]
              exact hri
            | Sum t1 =>
              rcases hquad.2.1 t1 hnk with ⟨ids2, hri, hout⟩
              rw [hout] at hk
              cases hk
              cases ht
              refine ⟨ids2, rfl, t1, ?_, Or.inr rfl⟩
              rw [← Nat.zero_add pos]
              exact hri
            | Thin t1 =>
              rw [hquad.2.2.1 (RexKind.Thin t1) hnk rfl] at hk
              cases hk
              cases ht
            | Fat f1 =>
              rw [hquad.2.2.1 (RexKind.Fat f1) hnk rfl] at hk
              cases hk
              cases ht
            | Immediate i1 =>
              rw [hquad.2.2.1 (RexKind.Immediate i1) hnk rfl] at hk
              cases hk
              cases ht
            | Instance i1 =>
              rw [hquad.2.2.1 (RexKind.Instance i1) hnk rfl] at hk
              cases hk
              cases ht
      rcases hremap with ⟨ids2, hte, t1, hri, hdisj⟩
      have htree : ∃ k1, pex.1.get? pos = some k1 ∧ isTreeNode k1 = true := by
        rcases hdisj with h1 | h1
        · exact ⟨RexKind.Product t1, h1, rfl⟩
        · exact ⟨RexKind.Sum t1, h1, rfl⟩
      rcases htree with ⟨k1, hk1, htn⟩
      rcases hg pos k1 hk1 htn with ⟨p, hp⟩
      rcases hf2 p pos hp with ⟨kp, hkp, hcont⟩
      rw [hte] at hi2
      rcases hcont with ⟨far, tars, hkpe, hfit, hnkq⟩ | ⟨hnf, hnkq⟩
      · have ht1 : t1.ids = List.replicate tars.length 0 := by
          rcases hdisj with h1 | h1
          · rw [h1] at hnkq
            cases hnkq
          · rw [h1] at hnkq
            cases hnkq
            rfl
        rw [ht1] at hri
        exact remapIds_zeros_fwd pex.2 pos tars.length ids2 hri i2 hi2
      · have hold : ∀ i ∈ t1.ids, p < i := by
          have htp : treeAt r.kinds p = some t1 := by
            unfold treeAt
            rcases hdisj with h1 | h1
            · rw [h1] at hnkq
              injection hnkq with hkpe
              rw [← hkpe] at hkp
              rw [hkp]
            · rw [h1] at hnkq
              injection hnkq with hkpe
              rw [← hkpe] at hkp
              rw [hkp]
          exact hfwd p t1 htp
        exact remapIds_fwd pex.2 hpw p pos hp t1.ids ids2 hold hri i2 hi2


/-- C9: every `Rex` produced by the tree builder (`Rex::with_more`
applied, possibly repeatedly, to leaves holding a single rule or
instance) is forward-only: every `Product` or `Sum` node's child
indices strictly exceed the node's array position; and `fit_clone`
preserves this invariant, so its output on a built rex is again
forward-only. -/
theorem C9_forward_only (r : Rex) (hb : Built r) :
    forwardOnly r ∧ ∀ r2 : Rex, r.fit_clone = some r2 → forwardOnly r2 := by
  have h := built_fwd r hb
  exact ⟨h.1, fun r2 h2 => fit_clone_fwd r r2 h.1 h2⟩

/-- Witness for C9 at the built single-node rex `a => b` and its
`fit_clone` normal form. -/
theorem C9_forward_only_witness :
    forwardOnly (⟨[RexKind.Fat farAB]⟩ : Rex) ∧ forwardOnly rexFitAB :=
  have h := C9_forward_only ⟨[RexKind.Fat farAB]⟩ (Built.fat farAB)
  ⟨h.1, h.2 rexFitAB (by decide)⟩

end Ascesis










